import Mathlib

/-!
# Directory scan benchmark: sequential walk, bounded-concurrency walk, reconciler

A shallow embedding of `main.go`:

* `compareScanResults` (the reconciler), with Go maps as keyed lists and the
  unspecified `range` order over a map as an explicit seed;
* `scanUsingWalkDir`, over a tree model of the filesystem and the standard
  library's `filepath.WalkDir`;
* `scanUsingGoroutines`, as an interleaving machine: one small step per
  goroutine action, the scheduler an explicit parameter;
* `speedIncrease`, the speed ratios of `main`, in `float64` arithmetic.

The root path is a node of the tree or a symbolic link to one: `os.Lstat`
describes the link, `os.Stat` and `os.ReadDir` follow it.

Go `int` and `int64` are 64-bit two's-complement integers (`wrapInt64`); a
`float64` is the rational it denotes, rounded after every operation
(`roundFloat64`).
-/

namespace DirScan

/-! ## Machine integers -/

/-- Two's-complement reduction of an integer to the range of Go `int64`
(and of `int` on a 64-bit platform). -/
def wrapInt64 (x : Int) : Int := (x + 2 ^ 63) % 2 ^ 64 - 2 ^ 63

/-! ## Data model -/

/-- The part of `os.FileInfo` the program reads: `IsDir()` and `Size()`. -/
structure FileInfo where
  isDir : Bool
  size : Int
deriving DecidableEq

/-- Go `ScannedFile`: the path of an entry and its file information. -/
structure ScannedFile where
  Path : String
  Info : FileInfo
deriving DecidableEq

/-- Go `ScanComparison`. -/
structure ScanComparison where
  TotalWalkDirFiles : Int
  TotalWalkDirDirs : Int
  TotalWalkDirSize : Int
  TotalWalkDirObjects : Int
  TotalGoroutineFiles : Int
  TotalGoroutineDirs : Int
  TotalGoroutineSize : Int
  TotalGoroutineObjects : Int
  OnlyInWalkDir : List String
  OnlyInGoroutines : List String
deriving DecidableEq

/-! ## Go maps -/

/-- A Go `map[string]os.FileInfo`: a list of key/value pairs with distinct keys. -/
abbrev GoMap := List (String × FileInfo)

/-- The Go statement `m[k] = v`: overwrite the value of an existing key, or add the key. -/
def GoMap.assign : GoMap → String → FileInfo → GoMap
  | [], k, v => [(k, v)]
  | (k', v') :: rest, k, v =>
    if k' = k then (k, v) :: rest else (k', v') :: GoMap.assign rest k v

/-- The Go expression `_, found := m[k]`. -/
def GoMap.found (m : GoMap) (k : String) : Bool := m.any (fun kv => kv.1 == k)

/-- The keys of a map, in the order this representation stores them. -/
def GoMap.keys (m : GoMap) : List String := m.map Prod.fst

/-- Arrangement number `seed` of a list, in the factorial number system: the
head is inserted at position `seed % length` into arrangement `seed / length` of
the tail. Every arrangement of the list is reached by some seed. -/
def arrange : Nat → List String → List String
  | _, [] => []
  | seed, x :: xs =>
    let r := arrange (seed / (xs.length + 1)) xs
    r.take (seed % (xs.length + 1)) ++ x :: r.drop (seed % (xs.length + 1))

/-- The sequence of keys visited by `for path := range m`. Go leaves the order
unspecified and varies it from one iteration to the next; `seed` is the
runtime's choice among the arrangements of the keys. -/
def GoMap.range (seed : Nat) (m : GoMap) : List String := arrange seed m.keys

/-! ## The reconciler -/

/-- Zero value of `ScanComparison` (`var comparison ScanComparison`). -/
def ScanComparison.zero : ScanComparison :=
  ⟨0, 0, 0, 0, 0, 0, 0, 0, [], []⟩

/-- First loop of `compareScanResults`: `for _, file := range walkDirFiles`. -/
def walkDirLoop : List ScannedFile → GoMap × ScanComparison → GoMap × ScanComparison
  | [], st => st
  | file :: rest, (walkDirMap, comparison) =>
    let walkDirMap := walkDirMap.assign file.Path file.Info
    if file.Info.isDir then
      walkDirLoop rest (walkDirMap,
        { comparison with TotalWalkDirDirs := wrapInt64 (comparison.TotalWalkDirDirs + 1) })
    else
      walkDirLoop rest (walkDirMap,
        { comparison with
            TotalWalkDirFiles := wrapInt64 (comparison.TotalWalkDirFiles + 1)
            TotalWalkDirSize := wrapInt64 (comparison.TotalWalkDirSize + file.Info.size) })

/-- Second loop of `compareScanResults`: `for _, file := range goroutineFiles`. -/
def goroutineLoop : List ScannedFile → GoMap × ScanComparison → GoMap × ScanComparison
  | [], st => st
  | file :: rest, (goroutineMap, comparison) =>
    let goroutineMap := goroutineMap.assign file.Path file.Info
    if file.Info.isDir then
      goroutineLoop rest (goroutineMap,
        { comparison with TotalGoroutineDirs := wrapInt64 (comparison.TotalGoroutineDirs + 1) })
    else
      goroutineLoop rest (goroutineMap,
        { comparison with
            TotalGoroutineFiles := wrapInt64 (comparison.TotalGoroutineFiles + 1)
            TotalGoroutineSize := wrapInt64 (comparison.TotalGoroutineSize + file.Info.size) })

/-- The loops `for path := range m { if _, found := other[path]; !found { append } }`,
over the visiting sequence `visit` of the ranged map. -/
def onlyInLoop (other : GoMap) : List String → List String → List String
  | [], acc => acc
  | path :: rest, acc =>
    if other.found path then onlyInLoop other rest acc
    else onlyInLoop other rest (acc ++ [path])

/-- Go `compareScanResults`. `seedW` and `seedG` fix the order in which the two
`range` loops over `walkDirMap` and `goroutineMap` visit the keys. -/
def compareScanResults (seedW seedG : Nat) (walkDirFiles goroutineFiles : List ScannedFile) :
    ScanComparison :=
  let walkDirMap : GoMap := []
  let goroutineMap : GoMap := []
  let comparison := ScanComparison.zero
  let (walkDirMap, comparison) := walkDirLoop walkDirFiles (walkDirMap, comparison)
  let comparison :=
    { comparison with
        TotalWalkDirObjects :=
          wrapInt64 (comparison.TotalWalkDirFiles + comparison.TotalWalkDirDirs) }
  let (goroutineMap, comparison) := goroutineLoop goroutineFiles (goroutineMap, comparison)
  let comparison :=
    { comparison with
        TotalGoroutineObjects :=
          wrapInt64 (comparison.TotalGoroutineFiles + comparison.TotalGoroutineDirs) }
  let comparison :=
    { comparison with
        OnlyInWalkDir :=
          onlyInLoop goroutineMap (walkDirMap.range seedW) comparison.OnlyInWalkDir }
  let comparison :=
    { comparison with
        OnlyInGoroutines :=
          onlyInLoop walkDirMap (goroutineMap.range seedG) comparison.OnlyInGoroutines }
  comparison

/-! ## The permit pool size -/

/-- The capacity handed to `make(chan, numCPU*concurrencyMultiplier)` by
`scanUsingGoroutines`, after the baseline adjustment; `none` when `make` panics
(negative size). The product is a Go `int` product. -/
def semaphoreCap (numCPU concurrencyMultiplier : Int) : Option Nat :=
  let (numCPU, concurrencyMultiplier) :=
    if numCPU = 0 then ((1 : Int), (1 : Int)) else (numCPU, concurrencyMultiplier)
  let size := wrapInt64 (numCPU * concurrencyMultiplier)
  if size < 0 then none else some size.toNat

/-! ## The filesystem

The directory tree is fixed during a scan, so a directory is the list of its
entries, in the order `os.ReadDir` returns them. An entry that is not a
directory (regular file, symbolic link, device) is a `file`: for it
`entry.IsDir()` is false and neither walker descends. Each node carries the
outcome of the two operations the walkers perform on it: reading its metadata
and, for a directory, listing it. Below the root a symbolic link is such a
`file`. The root path itself may be a symbolic link (`Root`): `os.Lstat`
describes the link, `os.Stat` and `os.ReadDir` follow it. -/

/-- An error value returned by a filesystem call, identified by the failing
operation and the path it was applied to. -/
structure PathError where
  Op : String
  Path : String
deriving DecidableEq

/-- A node of the directory tree. -/
inductive FsNode where
  | file (name : String) (size : Int) (infoFails : Bool)
  | dir (name : String) (size : Int) (infoFails : Bool) (listFails : Bool)
      (entries : List FsNode)

/-- The method `entry.Name()`. -/
def FsNode.name : FsNode → String
  | .file name _ _ => name
  | .dir name _ _ _ _ => name

/-- The method `entry.IsDir()`. -/
def FsNode.isDir : FsNode → Bool
  | .file _ _ _ => false
  | .dir _ _ _ _ _ => true

/-- Whether reading the metadata of the node fails. -/
def FsNode.infoFails : FsNode → Bool
  | .file _ _ fails => fails
  | .dir _ _ fails _ _ => fails

/-- The metadata of the node, when it can be read. -/
def FsNode.fileInfo : FsNode → FileInfo
  | .file _ size _ => ⟨false, size⟩
  | .dir _ size _ _ _ => ⟨true, size⟩

/-- The method `entry.Info()` of the entry found at `path`. -/
def FsNode.info (path : String) (d : FsNode) : Except PathError FileInfo :=
  if d.infoFails then .error ⟨"lstat", path⟩ else .ok d.fileInfo

/-- The call `os.Stat(path)`, `path` naming the node (links followed). -/
def FsNode.stat (path : String) (d : FsNode) : Except PathError FileInfo :=
  if d.infoFails then .error ⟨"stat", path⟩ else .ok d.fileInfo

/-- The call `os.ReadDir(path)`, `path` naming the node: it fails on a node that is
not a directory and on a directory that cannot be listed. -/
def FsNode.readDir (path : String) : FsNode → Except PathError (List FsNode)
  | .file _ _ _ => .error ⟨"readdirent", path⟩
  | .dir _ _ _ listFails entries => if listFails then .error ⟨"open", path⟩ else .ok entries

/-- What `rootDir` names: a node of the tree, or a symbolic link to one. -/
inductive Root where
  | node (d : FsNode)
  | symlink (name : String) (size : Int) (lstatFails : Bool) (target : FsNode)

/-- The entry `os.Lstat(rootDir)` describes: the node, or the link itself, which is
not a directory. -/
def Root.lstatNode : Root → FsNode
  | .node d => d
  | .symlink name size lstatFails _ => .file name size lstatFails

/-- The node `os.Stat(rootDir)` and `os.ReadDir(rootDir)` reach, following a link. -/
def Root.target : Root → FsNode
  | .node d => d
  | .symlink _ _ _ target => target

/-- The call `os.Stat(rootDir)`: the metadata of the target of a link. -/
def Root.stat (rootDir : String) : Root → Except PathError FileInfo
  | .node d => d.stat rootDir
  | .symlink _ _ lstatFails target =>
    if lstatFails then .error ⟨"stat", rootDir⟩ else target.stat rootDir

/-! ## The sequential walker

`filepath.WalkDir` belongs to the Go standard library. `walkDir` follows its
source: call the function on the entry, return if that fails or the entry is not
a directory, list the directory, on a listing error call the function a second
time with the error, otherwise walk the entries in order and stop at the first
error. The function passed by `scanUsingWalkDir` returns the error it is handed,
else the error of `entry.Info()`, else appends the record and returns nil; it is
inlined. `join` is `filepath.Join` on a directory path and an entry name. -/

mutual
/-- Library `walkDir(path, d, walkDirFn)` with the closure of `scanUsingWalkDir`
as `walkDirFn`; `files` is `result.Files`. -/
def walkDir (join : String → String → String) (path : String) (files : List ScannedFile) :
    FsNode → List ScannedFile × Option PathError
  | .file name size fails =>
    match (FsNode.file name size fails).info path with
    | .error err => (files, some err)
    | .ok info => (files ++ [⟨path, info⟩], none)
  | .dir name size fails listFails entries =>
    match (FsNode.dir name size fails listFails entries).info path with
    | .error err => (files, some err)
    | .ok info =>
      if listFails then (files ++ [⟨path, info⟩], some ⟨"open", path⟩)
      else walkDirEntries join path (files ++ [⟨path, info⟩]) entries
/-- The loop `for _, d1 := range dirs` of the library `walkDir`. -/
def walkDirEntries (join : String → String → String) (path : String)
    (files : List ScannedFile) : List FsNode → List ScannedFile × Option PathError
  | [] => (files, none)
  | d1 :: dirs =>
    match walkDir join (join path d1.name) files d1 with
    | (files, some err) => (files, some err)
    | (files, none) => walkDirEntries join path files dirs
end

/-- Go `scanUsingWalkDir`: returns `result.Files` and the error of
`filepath.WalkDir`. The library first calls `os.Lstat(root)`; when that fails
the function is called with the error and returns it; otherwise the root entry
is built from the metadata just read, so that its `Info()` cannot fail. A root
that is a symbolic link is the link, not a directory: it is recorded and not
descended. -/
def scanUsingWalkDir (join : String → String → String) (rootDir : String) (root : Root) :
    List ScannedFile × Option PathError :=
  if root.lstatNode.infoFails then ([], some ⟨"lstat", rootDir⟩)
  else walkDir join rootDir [] root.lstatNode

/-! ## The bounded-concurrency walker

`scanUsingGoroutines` is a set of goroutines: the caller (`main`), one
`scanDirectory` task per directory, and the goroutine that waits for the
`WaitGroup` and closes `doneChan`. The state below holds what they share and a
program counter for each; `step` lets one goroutine perform its next action, or
returns `none` when that goroutine is blocked or has ended.

Granularity. Each action touches the shared state at one point: a send or a
receive on a channel, a `WaitGroup` call, or the critical section
`result.Lock() ... result.Unlock()`, which the mutex makes atomic. Two actions
group several statements: the caller's first action runs from `os.Stat` to
`go scanDirectory(rootDir)`, before which no other goroutine exists; one
iteration of the loop over the entries runs `entry.Info()`, the append to the
local buffer, and `wg.Add(1); go scanDirectory(...)`, during which the counter
of the `WaitGroup` is positive anyway because the iterating task has not called
`wg.Done()`.

The `select` of the caller follows the Go runtime: it first polls its two cases
and takes a ready one (a random one if both are ready); if none is ready the
caller parks on both channels, and the first send on `errChan` or the close of
`doneChan` hands over to it and decides the case. -/

/-- Program counter of a `scanDirectory` goroutine. -/
inductive TaskPC where
  /-- At `semaphore <- struct`: waiting for a permit. -/
  | acquire
  /-- Holding a permit, at `os.ReadDir(dirPath)`. -/
  | readDir
  /-- In `for _, entry := range entries`, with the entries left and the local buffer. -/
  | loop (entries : List FsNode) (buffer : List ScannedFile)
  /-- At the deferred `<-semaphore`. -/
  | release
  /-- At the deferred `wg.Done()`. -/
  | done
  /-- Returned. -/
  | finished

/-- A `scanDirectory(dirPath)` goroutine. `dir` is the node `dirPath` names.
`acquired` and `released` count the sends to and receives from `semaphore` this
goroutine has performed (bookkeeping, not program state). -/
structure Task where
  dirPath : String
  dir : FsNode
  pc : TaskPC
  acquired : Nat
  released : Nat

/-- Program counter of the goroutine `go func() wg.Wait(); close(doneChan)`. -/
inductive WaiterPC where
  | notStarted
  | wait
  | close
  | exited
deriving DecidableEq

/-- Program counter of the calling goroutine. -/
inductive MainPC where
  /-- At `os.Stat(rootDir)`. -/
  | stat
  /-- Root recorded and root task started; at `go func()` of the waiting goroutine. -/
  | goWaiter
  /-- About to evaluate the `select`. -/
  | select
  /-- Blocked in the `select`: neither channel was ready. -/
  | parked
  /-- Woken from the `select` by the close of `doneChan`. -/
  | wokenDone
  /-- Woken from the `select` by a send on `errChan`, which handed over `err`. -/
  | wokenErr (err : PathError)
  /-- Returned `files, err`. -/
  | returned (files : List ScannedFile) (err : Option PathError)
deriving DecidableEq

/-- The shared state of one call of `scanUsingGoroutines`. -/
structure State where
  /-- Contents of `result.Files`. -/
  files : List ScannedFile
  /-- Number of elements in the buffer of `semaphore`: permits held. -/
  semaphore : Nat
  /-- Content of the one-element buffer of `errChan`. -/
  errChan : Option PathError
  /-- Counter of the `WaitGroup`. -/
  wg : Nat
  /-- Whether `doneChan` is closed. -/
  doneChan : Bool
  /-- The `scanDirectory` goroutines started so far. -/
  tasks : List Task
  waiter : WaiterPC
  main : MainPC

/-- State at entry of `scanUsingGoroutines`. -/
def State.init : State :=
  ⟨[], 0, none, 0, false, [], .notStarted, .stat⟩

/-- The non-blocking send `select case errChan <- err: default:`. A receiver
blocked in the `select` of the caller takes the value directly; otherwise the
value goes to the buffer if it is empty, and is dropped if it is full. -/
def publish (s : State) (err : PathError) : State :=
  match s.main with
  | .parked => { s with main := .wokenErr err }
  | _ =>
    match s.errChan with
    | none => { s with errChan := some err }
    | some _ => s

/-- One action of the `scanDirectory` goroutine number `i`. `cap` is the capacity
of `semaphore`. One iteration of the loop over the entries is one action. The
`WaitGroup` counter is positive at `wg.Done()` (see `inv_of_exec`). -/
def stepTask (join : String → String → String) (cap : Nat) (s : State) (i : Nat) :
    Option State :=
  match s.tasks[i]? with
  | none => none
  | some t =>
    match t.pc with
    | .acquire =>
      if s.semaphore < cap then
        some { s with
          semaphore := s.semaphore + 1
          tasks := s.tasks.set i { t with pc := .readDir, acquired := t.acquired + 1 } }
      else none
    | .readDir =>
      match t.dir.readDir t.dirPath with
      | .error err => some (publish { s with tasks := s.tasks.set i { t with pc := .release } } err)
      | .ok entries => some { s with tasks := s.tasks.set i { t with pc := .loop entries [] } }
    | .loop [] buffer =>
      some { s with
        files := s.files ++ buffer
        tasks := s.tasks.set i { t with pc := .release } }
    | .loop (entry :: rest) buffer =>
      match entry.info (join t.dirPath entry.name) with
      | .error err =>
        some (publish { s with tasks := s.tasks.set i { t with pc := .loop rest buffer } } err)
      | .ok info =>
        let buffer := buffer ++ [⟨join t.dirPath entry.name, info⟩]
        if entry.isDir then
          some { s with
            wg := s.wg + 1
            tasks := s.tasks.set i { t with pc := .loop rest buffer } ++
              [⟨join t.dirPath entry.name, entry, .acquire, 0, 0⟩] }
        else
          some { s with tasks := s.tasks.set i { t with pc := .loop rest buffer } }
    | .release =>
      if 0 < s.semaphore then
        some { s with
          semaphore := s.semaphore - 1
          tasks := s.tasks.set i { t with pc := .done, released := t.released + 1 } }
      else none
    | .done =>
      some { s with wg := s.wg - 1, tasks := s.tasks.set i { t with pc := .finished } }
    | .finished => none

/-- One action of the goroutine that waits for the tasks: `wg.Wait()` returns
once the counter is zero; `close(doneChan)` wakes a caller blocked in `select`. -/
def stepWaiter (s : State) : Option State :=
  match s.waiter with
  | .notStarted => none
  | .wait => if s.wg = 0 then some { s with waiter := .close } else none
  | .close =>
    match s.main with
    | .parked => some { s with doneChan := true, waiter := .exited, main := .wokenDone }
    | _ => some { s with doneChan := true, waiter := .exited }
  | .exited => none

/-- One action of the calling goroutine. When both cases of the `select` are
ready Go picks one at random: `pickErr` is that pick. -/
def stepMain (rootDir : String) (root : Root) (pickErr : Bool) (s : State) : Option State :=
  match s.main with
  | .stat =>
    match root.stat rootDir with
    | .error err => some { s with main := .returned [] (some err) }
    | .ok rootInfo =>
      some { s with
        files := s.files ++ [⟨rootDir, rootInfo⟩]
        wg := s.wg + 1
        tasks := s.tasks ++ [⟨rootDir, root.target, .acquire, 0, 0⟩]
        main := .goWaiter }
  | .goWaiter => some { s with waiter := .wait, main := .select }
  | .select =>
    match s.doneChan, s.errChan with
    | true, some err =>
      if pickErr then some { s with errChan := none, main := .returned [] (some err) }
      else some { s with main := .returned s.files none }
    | true, none => some { s with main := .returned s.files none }
    | false, some err => some { s with errChan := none, main := .returned [] (some err) }
    | false, none => some { s with main := .parked }
  | .parked => none
  | .wokenDone => some { s with main := .returned s.files none }
  | .wokenErr err => some { s with main := .returned [] (some err) }
  | .returned _ _ => none

/-- A scheduling decision: which goroutine moves next. -/
inductive Action where
  | main (pickErr : Bool)
  | waiter
  | task (i : Nat)
deriving DecidableEq

/-- One step of the whole system; `none` when the chosen goroutine cannot move. -/
def step (join : String → String → String) (cap : Nat) (rootDir : String) (root : Root)
    (s : State) : Action → Option State
  | .main pickErr => stepMain rootDir root pickErr s
  | .waiter => stepWaiter s
  | .task i => stepTask join cap s i

/-- Run a schedule from a state; a decision for a goroutine that cannot move is skipped. -/
def exec (join : String → String → String) (cap : Nat) (rootDir : String) (root : Root)
    (s : State) (schedule : List Action) : State :=
  schedule.foldl (fun s a => (step join cap rootDir root s a).getD s) s

/-- The actions that can be taken in a state. -/
def enabled (join : String → String → String) (cap : Nat) (rootDir : String) (root : Root)
    (s : State) : List Action :=
  ([Action.main false, Action.main true, Action.waiter] ++
      (List.range s.tasks.length).map Action.task).filter
    (fun a => (step join cap rootDir root s a).isSome)

/-- Whether the caller has returned. -/
def MainPC.isReturned : MainPC → Bool
  | .returned _ _ => true
  | _ => false

/-- The schedule a scheduler produces from a state: at each step `choose` picks
one of the enabled actions, until the caller has returned, nothing can move, or
`fuel` steps have been taken. -/
def scheduleOf (join : String → String → String) (cap : Nat) (rootDir : String)
    (root : Root) (choose : Nat → Nat) : Nat → State → List Action
  | 0, _ => []
  | fuel + 1, s =>
    if s.main.isReturned then []
    else
      match enabled join cap rootDir root s with
      | [] => []
      | a :: rest =>
        let act := (a :: rest).getD (choose fuel % (rest.length + 1)) a
        act :: scheduleOf join cap rootDir root choose fuel
          ((step join cap rootDir root s act).getD s)

/-- Go `scanUsingGoroutines` under a schedule: the value returned to the caller,
or `none` when `make(chan, n)` panics or the caller has not returned by the end
of the schedule. -/
def scanUsingGoroutines (join : String → String → String) (rootDir : String) (root : Root)
    (numCPU concurrencyMultiplier : Int) (schedule : List Action) :
    Option (List ScannedFile × Option PathError) :=
  match semaphoreCap numCPU concurrencyMultiplier with
  | none => none
  | some cap =>
    match (exec join cap rootDir root State.init schedule).main with
    | .returned files err => some (files, err)
    | _ => none

/-- A concrete `filepath.Join` for clean relative paths. -/
def joinSlash (dir name : String) : String := dir ++ "/" ++ name

/-! ## The speed ratio

`main` computes the two ratios in `float64`. A finite `float64` value is the
rational number it denotes, and every `float64` operation is the exact
operation followed by `roundFloat64`, the rounding to the nearest number with a
53-bit significand, ties to the even significand (IEEE 754 binary64). The
exponent is left unbounded: the values met here, for positive durations, lie
between 1 and 2^64, far from overflow and from the subnormal numbers. -/

/-- The conversion `int(x)`: truncation toward zero. For a value outside the range
of `int` Go leaves the result to the implementation; amd64 gives the least
`int`. -/
def truncInt (x : ℚ) : Int :=
  let n := if 0 ≤ x then ⌊x⌋ else ⌈x⌉
  if -2 ^ 63 ≤ n ∧ n < 2 ^ 63 then n else -2 ^ 63

/-- The integer nearest to a rational, the even one of the two when it lies
halfway. -/
def roundHalfEven (m : ℚ) : Int :=
  if m - ⌊m⌋ < 1 / 2 then ⌊m⌋
  else if 1 / 2 < m - ⌊m⌋ then ⌊m⌋ + 1
  else if ⌊m⌋ % 2 = 0 then ⌊m⌋ else ⌊m⌋ + 1

/-- Rounding to `float64`: with `e` the binary exponent of `x`, the nearest
multiple of `2^(e-52)`, ties to even. -/
def roundFloat64 (x : ℚ) : ℚ :=
  if x = 0 then 0
  else (roundHalfEven (x / 2 ^ (Int.log 2 |x| - 52)) : ℚ) * 2 ^ (Int.log 2 |x| - 52)

/-- The conversion `float64(n)` of an integer. -/
def f64OfInt (n : Int) : ℚ := roundFloat64 n

/-- The `float64` division `x / y`. -/
def f64Div (x y : ℚ) : ℚ := roundFloat64 (x / y)

/-- The `float64` expression `x*y + z`. Go may compute it with one rounding (a fused
multiply-add, as on arm64) or with two (as on amd64); `fused` says which. -/
def f64MulAdd (fused : Bool) (x y z : ℚ) : ℚ :=
  if fused then roundFloat64 (x * y + z) else roundFloat64 (roundFloat64 (x * y) + z)

/-- The expression `float64(int(x*10+0.5)) / 10`. -/
def roundTenth (fused : Bool) (x : ℚ) : ℚ :=
  f64Div (f64OfInt (truncInt (f64MulAdd fused x 10 (1 / 2)))) 10

/-- The speed ratios `main` prints, from the two measured durations (in
nanoseconds): first `speedIncreaseWalkDirRounded`, printed in the `WalkDir` row,
then `speedIncreaseGoroutinesRounded`, printed in the `Concurrent Read` row. -/
def speedIncrease (fused : Bool) (durationWalkDir durationGoroutines : Int) : ℚ × ℚ :=
  if durationWalkDir > durationGoroutines then
    let speedIncreaseWalkDir : ℚ := 1
    let speedIncreaseGoroutines :=
      f64Div (f64OfInt durationWalkDir) (f64OfInt durationGoroutines)
    (roundTenth fused speedIncreaseWalkDir, roundTenth fused speedIncreaseGoroutines)
  else
    let speedIncreaseWalkDir :=
      f64Div (f64OfInt durationGoroutines) (f64OfInt durationWalkDir)
    let speedIncreaseGoroutines : ℚ := 1
    (roundTenth fused speedIncreaseWalkDir, roundTenth fused speedIncreaseGoroutines)

/-! ## Specification vocabulary -/

/-- The set of paths occurring in a record list. -/
def pathSet (l : List ScannedFile) : Finset String := (l.map ScannedFile.Path).toFinset

/-- The map built by either counting loop of `compareScanResults`, on its own. -/
def buildMap (l : List ScannedFile) (m : GoMap) : GoMap :=
  l.foldl (fun m file => m.assign file.Path file.Info) m

/-- Number of directory records of a list. -/
def dirCount (l : List ScannedFile) : Nat := l.countP (fun f => f.Info.isDir)

/-- Number of non-directory records of a list. -/
def fileCount (l : List ScannedFile) : Nat := l.countP (fun f => !f.Info.isDir)

/-- Exact sum of `Info.Size()` over the non-directory records of a list. -/
def fileSizeSum (l : List ScannedFile) : Int :=
  ((l.filter (fun f => !f.Info.isDir)).map (fun f => f.Info.size)).sum

/-- The entries of a directory node (none for a file). -/
def FsNode.entries : FsNode → List FsNode
  | .file _ _ _ => []
  | .dir _ _ _ _ entries => entries

mutual
/-- Every metadata read and every directory listing in the tree succeeds. -/
def FsNode.clean : FsNode → Bool
  | .file _ _ fails => !fails
  | .dir _ _ fails listFails entries => !fails && !listFails && cleanList entries
/-- Every tree of the list is clean. -/
def cleanList : List FsNode → Bool
  | [] => true
  | e :: es => e.clean && cleanList es
end

/-- Every metadata read and every listing succeeds, at the root and below. -/
def Root.clean : Root → Bool
  | .node d => d.clean
  | .symlink _ _ lstatFails target => !lstatFails && target.clean

mutual
/-- The paths of a tree found at `path`: the node, then its entries in order, each
followed by what lies below it. -/
def treePaths (join : String → String → String) (path : String) : FsNode → List String
  | .file _ _ _ => [path]
  | .dir _ _ _ _ entries => path :: entryPaths join path entries
/-- The paths of the trees below the directory `path`. -/
def entryPaths (join : String → String → String) (path : String) : List FsNode → List String
  | [] => []
  | e :: es => treePaths join (join path e.name) e ++ entryPaths join path es
end

/-- The operations of a complete pre-order walk, each with its outcome: a record
for a metadata read that succeeds, a failure for a metadata read or a directory
listing that fails. -/
inductive Visit where
  | record (file : ScannedFile)
  | failure (err : PathError)
deriving DecidableEq

/-- The records of the visits that come before the first failure. -/
def recordsBefore : List Visit → List ScannedFile
  | [] => []
  | .record f :: vs => f :: recordsBefore vs
  | .failure _ :: _ => []

/-- The first failure among a list of visits. -/
def firstFailure : List Visit → Option PathError
  | [] => none
  | .record _ :: vs => firstFailure vs
  | .failure err :: _ => some err

mutual
/-- The visits of the tree found at `path`, in pre-order: the metadata of the node,
the listing of a directory when it fails, then the entries in order. Nothing
below a node whose metadata or listing fails is visited. -/
def visits (join : String → String → String) (path : String) : FsNode → List Visit
  | .file _ size fails =>
    if fails then [.failure ⟨"lstat", path⟩] else [.record ⟨path, ⟨false, size⟩⟩]
  | .dir _ size fails listFails entries =>
    if fails then [.failure ⟨"lstat", path⟩]
    else if listFails then [.record ⟨path, ⟨true, size⟩⟩, .failure ⟨"open", path⟩]
    else .record ⟨path, ⟨true, size⟩⟩ :: entryVisits join path entries
/-- The visits of the entries of the directory `path`, in order. -/
def entryVisits (join : String → String → String) (path : String) : List FsNode → List Visit
  | [] => []
  | e :: es => visits join (join path e.name) e ++ entryVisits join path es
end

/-- A task holds a permit from its send on `semaphore` to its receive from it. -/
def Task.holding (t : Task) : Bool :=
  match t.pc with
  | .readDir => true
  | .loop _ _ => true
  | .release => true
  | _ => false

/-- A task that has not returned. -/
def Task.unfinished (t : Task) : Bool :=
  match t.pc with
  | .finished => false
  | _ => true

/-- The permit bookkeeping of a task agrees with its program counter: no send
before the permit is held, one send and no receive while it is held, one send
and one receive after. -/
def Task.permitOk (t : Task) : Prop :=
  match t.pc with
  | .acquire => t.acquired = 0 ∧ t.released = 0
  | .readDir => t.acquired = 1 ∧ t.released = 0
  | .loop _ _ => t.acquired = 1 ∧ t.released = 0
  | .release => t.acquired = 1 ∧ t.released = 0
  | .done => t.acquired = 1 ∧ t.released = 1
  | .finished => t.acquired = 1 ∧ t.released = 1

/-- The paths a task has still to deliver to `result.Files`, itself or through
the tasks it will start. -/
def Task.pending (join : String → String → String) (t : Task) : List String :=
  match t.pc with
  | .acquire => entryPaths join t.dirPath t.dir.entries
  | .readDir => entryPaths join t.dirPath t.dir.entries
  | .loop entries buffer => buffer.map ScannedFile.Path ++ entryPaths join t.dirPath entries
  | _ => []

/-- A task works on a clean directory, and what is left of its loop is clean. -/
def Task.cleanOk (t : Task) : Prop :=
  t.dir.isDir = true ∧ t.dir.clean = true ∧
    match t.pc with
    | .loop entries _ => cleanList entries = true
    | _ => True

mutual
/-- Bound on the actions of a task started on a node, from `os.ReadDir` on,
together with the tasks it starts. -/
def nodeW : FsNode → Nat
  | .file _ _ _ => 3
  | .dir _ _ _ _ entries => 1 + listW entries
/-- Bound on the actions of a task from the loop over the given entries on. -/
def listW : List FsNode → Nat
  | [] => 3
  | e :: es => 2 + nodeW e + listW es
end

/-- Bound on the actions left to a task and the tasks it will start. -/
def Task.weight (t : Task) : Nat :=
  match t.pc with
  | .acquire => 1 + nodeW t.dir
  | .readDir => nodeW t.dir
  | .loop entries _ => listW entries
  | .release => 2
  | .done => 1
  | .finished => 0

/-- Bound on the actions left to the caller and to the goroutines it has yet to start. -/
def MainPC.weight (root : Root) : MainPC → Nat
  | .stat => 7 + nodeW root.target
  | .goWaiter => 5
  | .select => 2
  | .parked => 1
  | .wokenDone => 1
  | .wokenErr _ => 1
  | .returned _ _ => 0

/-- Bound on the actions left to the waiting goroutine. -/
def WaiterPC.weight : WaiterPC → Nat
  | .notStarted => 0
  | .wait => 2
  | .close => 1
  | .exited => 0

/-- Bound on the number of actions that can still be taken from a state. -/
def State.weight (root : Root) (s : State) : Nat :=
  s.main.weight root + s.waiter.weight + (s.tasks.map Task.weight).sum

/-- Invariant of the machine, for any tree and any capacity. -/
structure Inv (cap : Nat) (s : State) : Prop where
  sem_eq : s.semaphore = s.tasks.countP Task.holding
  sem_le : s.semaphore ≤ cap
  wg_eq : s.wg = s.tasks.countP Task.unfinished
  permit : ∀ t ∈ s.tasks, t.permitOk
  early : s.main = .stat ∨ s.main = .goWaiter → s.waiter = .notStarted
  stat_tasks : s.main = .stat → s.tasks = []
  started : s.main = .select ∨ s.main = .parked → s.waiter ≠ .notStarted
  parked : s.main = .parked → s.doneChan = false
  exited : s.waiter = .exited → s.doneChan = true
  closing : s.waiter = .close ∨ s.waiter = .exited → s.wg = 0
  closed : s.doneChan = true → s.waiter = .exited
  woken : s.main = .wokenDone → s.doneChan = true
  returned : ∀ files, s.main = .returned files none → files = s.files ∧ s.doneChan = true

/-- Invariant of the machine on a clean tree rooted at a directory. -/
structure CleanInv (join : String → String → String) (rootDir : String) (root : Root)
    (s : State) : Prop where
  tasks_clean : ∀ t ∈ s.tasks, t.cleanOk
  no_err : s.errChan = none
  no_woken : ∀ err, s.main ≠ .wokenErr err
  no_fail : ∀ files err, s.main ≠ .returned files (some err)
  stat_files : s.main = .stat → s.files = []
  paths : s.main ≠ .stat →
    (s.files.map ScannedFile.Path ++ s.tasks.flatMap (Task.pending join)).Perm
      (treePaths join rootDir root.target)

/-- The effect of one action of the task `t` standing between `l1` and `l2` in the
list of tasks: `stepTask` case by case, with the list of tasks written out. -/
inductive TaskStep (join : String → String → String) (cap : Nat) (s : State)
    (l1 : List Task) (t : Task) (l2 : List Task) : State → Prop where
  | acquire : t.pc = .acquire → s.semaphore < cap →
      TaskStep join cap s l1 t l2
        { s with
          semaphore := s.semaphore + 1
          tasks := l1 ++ { t with pc := .readDir, acquired := t.acquired + 1 } :: l2 }
  | listFail (err : PathError) : t.pc = .readDir → t.dir.readDir t.dirPath = .error err →
      TaskStep join cap s l1 t l2
        (publish { s with tasks := l1 ++ { t with pc := .release } :: l2 } err)
  | listOk (entries : List FsNode) : t.pc = .readDir → t.dir.readDir t.dirPath = .ok entries →
      TaskStep join cap s l1 t l2
        { s with tasks := l1 ++ { t with pc := .loop entries [] } :: l2 }
  | append (buffer : List ScannedFile) : t.pc = .loop [] buffer →
      TaskStep join cap s l1 t l2
        { s with files := s.files ++ buffer, tasks := l1 ++ { t with pc := .release } :: l2 }
  | infoFail (entry : FsNode) (rest : List FsNode) (buffer : List ScannedFile)
      (err : PathError) : t.pc = .loop (entry :: rest) buffer →
      entry.info (join t.dirPath entry.name) = .error err →
      TaskStep join cap s l1 t l2
        (publish { s with tasks := l1 ++ { t with pc := .loop rest buffer } :: l2 } err)
  | spawn (entry : FsNode) (rest : List FsNode) (buffer : List ScannedFile)
      (info : FileInfo) : t.pc = .loop (entry :: rest) buffer →
      entry.info (join t.dirPath entry.name) = .ok info → entry.isDir = true →
      TaskStep join cap s l1 t l2
        { s with
          wg := s.wg + 1
          tasks := (l1 ++
              { t with
                pc := .loop rest (buffer ++ [⟨join t.dirPath entry.name, info⟩]) } :: l2) ++
            [⟨join t.dirPath entry.name, entry, .acquire, 0, 0⟩] }
  | record (entry : FsNode) (rest : List FsNode) (buffer : List ScannedFile)
      (info : FileInfo) : t.pc = .loop (entry :: rest) buffer →
      entry.info (join t.dirPath entry.name) = .ok info → entry.isDir = false →
      TaskStep join cap s l1 t l2
        { s with
          tasks := l1 ++
            { t with
              pc := .loop rest (buffer ++ [⟨join t.dirPath entry.name, info⟩]) } :: l2 }
  | release : t.pc = .release → 0 < s.semaphore →
      TaskStep join cap s l1 t l2
        { s with
          semaphore := s.semaphore - 1
          tasks := l1 ++ { t with pc := .done, released := t.released + 1 } :: l2 }
  | done : t.pc = .done →
      TaskStep join cap s l1 t l2
        { s with wg := s.wg - 1, tasks := l1 ++ { t with pc := .finished } :: l2 }

/-! # Theorems -/

/-! ## Machine integers -/

theorem wrapInt64_of_range (x : Int) (h1 : -2 ^ 63 ≤ x) (h2 : x < 2 ^ 63) :
    wrapInt64 x = x := by
  unfold wrapInt64; omega

theorem wrapInt64_add_left (x y : Int) : wrapInt64 (wrapInt64 x + y) = wrapInt64 (x + y) := by
  unfold wrapInt64; omega

/-! ## Go maps -/

theorem GoMap.mem_keys_assign (m : GoMap) (k : String) (v : FileInfo) (p : String) :
    p ∈ (m.assign k v).keys ↔ p ∈ m.keys ∨ p = k := by
  induction m with
  | nil => simp [GoMap.assign, GoMap.keys]
  | cons kv rest ih =>
    obtain ⟨k', v'⟩ := kv
    simp only [GoMap.assign]
    split
    · rename_i h
      subst h
      simp only [GoMap.keys, List.map_cons, List.mem_cons]
      tauto
    · simp only [GoMap.keys, List.map_cons, List.mem_cons] at ih ⊢
      rw [ih]
      tauto

theorem GoMap.nodup_keys_assign (m : GoMap) (k : String) (v : FileInfo)
    (h : m.keys.Nodup) : (m.assign k v).keys.Nodup := by
  induction m with
  | nil => simp [GoMap.assign, GoMap.keys]
  | cons kv rest ih =>
    obtain ⟨k', v'⟩ := kv
    simp only [GoMap.keys, List.map_cons, List.nodup_cons] at h
    simp only [GoMap.assign]
    split
    · rename_i hk
      subst hk
      simpa [GoMap.keys] using h
    · rename_i hk
      have hmem := GoMap.mem_keys_assign rest k v k'
      simp only [GoMap.keys, List.map_cons, List.nodup_cons]
      refine ⟨?_, ih h.2⟩
      intro hc
      rcases (hmem.mp hc) with h1 | h1
      · exact h.1 h1
      · exact hk h1

theorem GoMap.found_iff (m : GoMap) (k : String) : m.found k = true ↔ k ∈ m.keys := by
  simp only [GoMap.found, GoMap.keys, List.any_eq_true, beq_iff_eq, List.mem_map]

theorem mem_keys_buildMap (l : List ScannedFile) (m : GoMap) (p : String) :
    p ∈ (buildMap l m).keys ↔ p ∈ m.keys ∨ p ∈ l.map ScannedFile.Path := by
  induction l generalizing m with
  | nil => simp [buildMap]
  | cons f rest ih =>
    have := ih (m.assign f.Path f.Info)
    simp only [buildMap, List.foldl_cons] at this ⊢
    rw [this, GoMap.mem_keys_assign]
    simp only [List.map_cons, List.mem_cons]
    tauto

theorem nodup_keys_buildMap (l : List ScannedFile) (m : GoMap) (h : m.keys.Nodup) :
    (buildMap l m).keys.Nodup := by
  induction l generalizing m with
  | nil => simpa [buildMap] using h
  | cons f rest ih =>
    simpa [buildMap] using ih (m.assign f.Path f.Info) (GoMap.nodup_keys_assign m _ _ h)

theorem arrange_perm (seed : Nat) (l : List String) : (arrange seed l).Perm l := by
  induction l generalizing seed with
  | nil => simp [arrange]
  | cons x xs ih =>
    simp only [arrange]
    refine List.perm_middle.trans ?_
    rw [List.take_append_drop]
    exact (ih _).cons x

/-- The seeds reach every arrangement: no iteration order Go may choose is left out. -/
theorem arrange_surjective (l l' : List String) (h : l'.Perm l) :
    ∃ seed, arrange seed l = l' := by
  induction l generalizing l' with
  | nil =>
    have := h.eq_nil
    subst this
    exact ⟨0, rfl⟩
  | cons x xs ih =>
    have hx : x ∈ l' := h.symm.subset (List.mem_cons_self x xs)
    obtain ⟨a, b, rfl⟩ := List.append_of_mem hx
    have hab : (a ++ b).Perm xs := (List.perm_middle.symm.trans h).cons_inv
    obtain ⟨seed', hs⟩ := ih (a ++ b) hab
    have hlen : a.length < xs.length + 1 := by
      have := hab.length_eq
      simp only [List.length_append] at this
      omega
    refine ⟨a.length + (xs.length + 1) * seed', ?_⟩
    simp only [arrange]
    rw [Nat.add_mul_div_left _ _ (Nat.succ_pos _), Nat.add_mul_mod_self_left,
      Nat.div_eq_of_lt hlen, Nat.mod_eq_of_lt hlen, Nat.zero_add, hs, List.take_left,
      List.drop_left]

theorem GoMap.range_perm (seed : Nat) (m : GoMap) : (m.range seed).Perm m.keys :=
  arrange_perm seed m.keys

/-! ## The reconciler -/

theorem walkDirLoop_fst (l : List ScannedFile) (m : GoMap) (c : ScanComparison) :
    (walkDirLoop l (m, c)).1 = buildMap l m := by
  induction l generalizing m c with
  | nil => simp [walkDirLoop, buildMap]
  | cons f rest ih =>
    simp only [walkDirLoop, buildMap, List.foldl_cons]
    split <;> rw [ih] <;> rfl

theorem goroutineLoop_fst (l : List ScannedFile) (m : GoMap) (c : ScanComparison) :
    (goroutineLoop l (m, c)).1 = buildMap l m := by
  induction l generalizing m c with
  | nil => simp [goroutineLoop, buildMap]
  | cons f rest ih =>
    simp only [goroutineLoop, buildMap, List.foldl_cons]
    split <;> rw [ih] <;> rfl

theorem onlyInLoop_eq (other : GoMap) (visit acc : List String) :
    onlyInLoop other visit acc = acc ++ visit.filter (fun p => !other.found p) := by
  induction visit generalizing acc with
  | nil => simp [onlyInLoop]
  | cons p rest ih =>
    simp only [onlyInLoop]
    split
    · rename_i h
      rw [ih]; simp [List.filter_cons, h]
    · rename_i h
      rw [ih]; simp [List.filter_cons, h]

theorem dirCount_add_fileCount (l : List ScannedFile) :
    dirCount l + fileCount l = l.length := by
  induction l with
  | nil => rfl
  | cons f rest ih =>
    simp only [dirCount, fileCount, List.countP_cons, List.length_cons] at ih ⊢
    cases f.Info.isDir <;> simp <;> omega

theorem walkDirLoop_snd (l : List ScannedFile) (m : GoMap) (c : ScanComparison)
    (hd : 0 ≤ c.TotalWalkDirDirs) (hf : 0 ≤ c.TotalWalkDirFiles)
    (hb : c.TotalWalkDirDirs + c.TotalWalkDirFiles + l.length < 2 ^ 63)
    (hs : wrapInt64 c.TotalWalkDirSize = c.TotalWalkDirSize) :
    (walkDirLoop l (m, c)).2 =
      { c with
          TotalWalkDirDirs := c.TotalWalkDirDirs + dirCount l
          TotalWalkDirFiles := c.TotalWalkDirFiles + fileCount l
          TotalWalkDirSize := wrapInt64 (c.TotalWalkDirSize + fileSizeSum l) } := by
  induction l generalizing m c with
  | nil => simp [walkDirLoop, dirCount, fileCount, fileSizeSum, hs]
  | cons f rest ih =>
    simp only [List.length_cons, Nat.cast_add, Nat.cast_one] at hb
    simp only [walkDirLoop]
    split
    · rename_i hdir
      have hw : wrapInt64 (c.TotalWalkDirDirs + 1) = c.TotalWalkDirDirs + 1 :=
        wrapInt64_of_range _ (by omega) (by omega)
      rw [ih _ _ (by simp only [hw]; omega) (by simpa using hf)
        (by simp only [hw]; omega) (by simpa using hs)]
      simp only [hw, dirCount, fileCount, fileSizeSum, List.countP_cons, List.filter_cons, hdir]
      simp only [Bool.not_true, Bool.false_eq_true, ↓reduceIte, Nat.cast_add, Nat.cast_one,
        Nat.add_zero, ScanComparison.mk.injEq, and_true, true_and]
      omega
    · rename_i hdir
      have hdir' : f.Info.isDir = false := by simpa using hdir
      have hw : wrapInt64 (c.TotalWalkDirFiles + 1) = c.TotalWalkDirFiles + 1 :=
        wrapInt64_of_range _ (by omega) (by omega)
      rw [ih _ _ (by simpa using hd) (by simp only [hw]; omega)
        (by simp only [hw]; omega) (by simp only [wrapInt64_add_left]; unfold wrapInt64; omega)]
      simp only [hw, dirCount, fileCount, fileSizeSum, List.countP_cons, List.filter_cons, hdir']
      simp only [Bool.not_false, Bool.false_eq_true, ↓reduceIte, Nat.cast_add, Nat.cast_one,
        Nat.add_zero, List.map_cons, List.sum_cons, ScanComparison.mk.injEq, and_true, true_and,
        wrapInt64_add_left]
      refine ⟨by omega, ?_⟩
      congr 1
      omega

theorem goroutineLoop_snd (l : List ScannedFile) (m : GoMap) (c : ScanComparison)
    (hd : 0 ≤ c.TotalGoroutineDirs) (hf : 0 ≤ c.TotalGoroutineFiles)
    (hb : c.TotalGoroutineDirs + c.TotalGoroutineFiles + l.length < 2 ^ 63)
    (hs : wrapInt64 c.TotalGoroutineSize = c.TotalGoroutineSize) :
    (goroutineLoop l (m, c)).2 =
      { c with
          TotalGoroutineDirs := c.TotalGoroutineDirs + dirCount l
          TotalGoroutineFiles := c.TotalGoroutineFiles + fileCount l
          TotalGoroutineSize := wrapInt64 (c.TotalGoroutineSize + fileSizeSum l) } := by
  induction l generalizing m c with
  | nil => simp [goroutineLoop, dirCount, fileCount, fileSizeSum, hs]
  | cons f rest ih =>
    simp only [List.length_cons, Nat.cast_add, Nat.cast_one] at hb
    simp only [goroutineLoop]
    split
    · rename_i hdir
      have hw : wrapInt64 (c.TotalGoroutineDirs + 1) = c.TotalGoroutineDirs + 1 :=
        wrapInt64_of_range _ (by omega) (by omega)
      rw [ih _ _ (by simp only [hw]; omega) (by simpa using hf)
        (by simp only [hw]; omega) (by simpa using hs)]
      simp only [hw, dirCount, fileCount, fileSizeSum, List.countP_cons, List.filter_cons, hdir]
      simp only [Bool.not_true, Bool.false_eq_true, ↓reduceIte, Nat.cast_add, Nat.cast_one,
        Nat.add_zero, ScanComparison.mk.injEq, and_true, true_and]
      omega
    · rename_i hdir
      have hdir' : f.Info.isDir = false := by simpa using hdir
      have hw : wrapInt64 (c.TotalGoroutineFiles + 1) = c.TotalGoroutineFiles + 1 :=
        wrapInt64_of_range _ (by omega) (by omega)
      rw [ih _ _ (by simpa using hd) (by simp only [hw]; omega)
        (by simp only [hw]; omega) (by simp only [wrapInt64_add_left]; unfold wrapInt64; omega)]
      simp only [hw, dirCount, fileCount, fileSizeSum, List.countP_cons, List.filter_cons, hdir']
      simp only [Bool.not_false, Bool.false_eq_true, ↓reduceIte, Nat.cast_add, Nat.cast_one,
        Nat.add_zero, List.map_cons, List.sum_cons, ScanComparison.mk.injEq, and_true, true_and,
        wrapInt64_add_left]
      refine ⟨by omega, ?_⟩
      congr 1
      omega

/-- The loops of `compareScanResults` touch disjoint fields: the two difference
lists are left empty by the counting loops. -/
theorem walkDirLoop_lists (l : List ScannedFile) (m : GoMap) (c : ScanComparison) :
    (walkDirLoop l (m, c)).2.OnlyInWalkDir = c.OnlyInWalkDir ∧
    (walkDirLoop l (m, c)).2.OnlyInGoroutines = c.OnlyInGoroutines := by
  induction l generalizing m c with
  | nil => simp [walkDirLoop]
  | cons f rest ih =>
    simp only [walkDirLoop]
    split <;> rw [(ih _ _).1, (ih _ _).2] <;> simp

theorem goroutineLoop_lists (l : List ScannedFile) (m : GoMap) (c : ScanComparison) :
    (goroutineLoop l (m, c)).2.OnlyInWalkDir = c.OnlyInWalkDir ∧
    (goroutineLoop l (m, c)).2.OnlyInGoroutines = c.OnlyInGoroutines := by
  induction l generalizing m c with
  | nil => simp [goroutineLoop]
  | cons f rest ih =>
    simp only [goroutineLoop]
    split <;> rw [(ih _ _).1, (ih _ _).2] <;> simp

/-- The counting loop over the second list leaves the first list's aggregates alone. -/
theorem goroutineLoop_walkDir_fields (l : List ScannedFile) (m : GoMap) (c : ScanComparison) :
    (goroutineLoop l (m, c)).2.TotalWalkDirFiles = c.TotalWalkDirFiles ∧
    (goroutineLoop l (m, c)).2.TotalWalkDirDirs = c.TotalWalkDirDirs ∧
    (goroutineLoop l (m, c)).2.TotalWalkDirSize = c.TotalWalkDirSize ∧
    (goroutineLoop l (m, c)).2.TotalWalkDirObjects = c.TotalWalkDirObjects := by
  induction l generalizing m c with
  | nil => simp [goroutineLoop]
  | cons f rest ih =>
    simp only [goroutineLoop]
    split <;> rw [(ih _ _).1, (ih _ _).2.1, (ih _ _).2.2.1, (ih _ _).2.2.2] <;> simp

theorem compareScanResults_onlyInWalkDir (seedW seedG : Nat) (a b : List ScannedFile) :
    (compareScanResults seedW seedG a b).OnlyInWalkDir =
      ((buildMap a []).range seedW).filter (fun p => !(buildMap b []).found p) := by
  unfold compareScanResults
  simp only []
  rw [onlyInLoop_eq, goroutineLoop_fst, walkDirLoop_fst, (goroutineLoop_lists _ _ _).1]
  simp [(walkDirLoop_lists _ _ _).1, ScanComparison.zero]

theorem compareScanResults_onlyInGoroutines (seedW seedG : Nat) (a b : List ScannedFile) :
    (compareScanResults seedW seedG a b).OnlyInGoroutines =
      ((buildMap b []).range seedG).filter (fun p => !(buildMap a []).found p) := by
  unfold compareScanResults
  simp only []
  rw [onlyInLoop_eq, goroutineLoop_fst, walkDirLoop_fst]
  simp [(goroutineLoop_lists _ _ _).2, (walkDirLoop_lists _ _ _).2, ScanComparison.zero]

theorem mem_keys_buildMap_nil (l : List ScannedFile) (p : String) :
    p ∈ (buildMap l []).keys ↔ ∃ f ∈ l, f.Path = p := by
  rw [mem_keys_buildMap]
  simp [GoMap.keys]

theorem mem_onlyInWalkDir (seedW seedG : Nat) (a b : List ScannedFile) (p : String) :
    p ∈ (compareScanResults seedW seedG a b).OnlyInWalkDir ↔
      (∃ f ∈ a, f.Path = p) ∧ ¬ ∃ g ∈ b, g.Path = p := by
  rw [compareScanResults_onlyInWalkDir, List.mem_filter, (GoMap.range_perm _ _).mem_iff,
    mem_keys_buildMap_nil, Bool.not_eq_true', ← Bool.not_eq_true, GoMap.found_iff,
    mem_keys_buildMap_nil]

theorem mem_onlyInGoroutines (seedW seedG : Nat) (a b : List ScannedFile) (p : String) :
    p ∈ (compareScanResults seedW seedG a b).OnlyInGoroutines ↔
      (∃ g ∈ b, g.Path = p) ∧ ¬ ∃ f ∈ a, f.Path = p := by
  rw [compareScanResults_onlyInGoroutines, List.mem_filter, (GoMap.range_perm _ _).mem_iff,
    mem_keys_buildMap_nil, Bool.not_eq_true', ← Bool.not_eq_true, GoMap.found_iff,
    mem_keys_buildMap_nil]

theorem mem_pathSet (l : List ScannedFile) (p : String) :
    p ∈ pathSet l ↔ ∃ f ∈ l, f.Path = p := by
  simp [pathSet]

/-- Both difference lists are empty exactly when the two record lists carry the same paths. -/
theorem onlyIn_empty_iff (seedW seedG : Nat) (a b : List ScannedFile) :
    ((compareScanResults seedW seedG a b).OnlyInWalkDir = [] ∧
      (compareScanResults seedW seedG a b).OnlyInGoroutines = []) ↔
      pathSet a = pathSet b := by
  constructor
  · rintro ⟨h1, h2⟩
    ext p
    rw [mem_pathSet, mem_pathSet]
    have k1 := mem_onlyInWalkDir seedW seedG a b p
    have k2 := mem_onlyInGoroutines seedW seedG a b p
    rw [h1] at k1
    rw [h2] at k2
    simp only [List.not_mem_nil, false_iff, not_and, not_not] at k1 k2
    exact ⟨k1, k2⟩
  · intro h
    have hp : ∀ p, (∃ f ∈ a, f.Path = p) ↔ ∃ g ∈ b, g.Path = p := by
      intro p
      rw [← mem_pathSet, ← mem_pathSet, h]
    constructor
    · apply List.eq_nil_iff_forall_not_mem.mpr
      intro p hmem
      have := (mem_onlyInWalkDir seedW seedG a b p).mp hmem
      exact this.2 ((hp p).mp this.1)
    · apply List.eq_nil_iff_forall_not_mem.mpr
      intro p hmem
      have := (mem_onlyInGoroutines seedW seedG a b p).mp hmem
      exact this.2 ((hp p).mpr this.1)

/-- C2. For every pair of record lists and every iteration order of the two
maps, `compareScanResults` leaves `OnlyInWalkDir` and `OnlyInGoroutines` both
empty if and only if the set of paths of the first list equals the set of paths
of the second. -/
theorem compareScanResults_empty_iff_same_paths (seedW seedG : Nat)
    (a b : List ScannedFile) :
    ((compareScanResults seedW seedG a b).OnlyInWalkDir = [] ∧
      (compareScanResults seedW seedG a b).OnlyInGoroutines = []) ↔
      pathSet a = pathSet b :=
  onlyIn_empty_iff seedW seedG a b

/-- C8. A path occurs in `OnlyInWalkDir` exactly when it is the path of a record
of the first list and of no record of the second, and in `OnlyInGoroutines`
exactly when it is the path of a record of the second list and of no record of
the first; neither list repeats a path, whatever the repetitions in the inputs
and whatever the iteration order of the maps. -/
theorem compareScanResults_differences (seedW seedG : Nat) (a b : List ScannedFile) :
    (∀ p, p ∈ (compareScanResults seedW seedG a b).OnlyInWalkDir ↔
        (∃ f ∈ a, f.Path = p) ∧ ¬ ∃ g ∈ b, g.Path = p) ∧
    (∀ p, p ∈ (compareScanResults seedW seedG a b).OnlyInGoroutines ↔
        (∃ g ∈ b, g.Path = p) ∧ ¬ ∃ f ∈ a, f.Path = p) ∧
    (compareScanResults seedW seedG a b).OnlyInWalkDir.Nodup ∧
    (compareScanResults seedW seedG a b).OnlyInGoroutines.Nodup := by
  refine ⟨mem_onlyInWalkDir seedW seedG a b, mem_onlyInGoroutines seedW seedG a b, ?_, ?_⟩
  · rw [compareScanResults_onlyInWalkDir]
    exact ((GoMap.range_perm _ _).nodup_iff.mpr
      (nodup_keys_buildMap a [] (by simp [GoMap.keys]))).filter _
  · rw [compareScanResults_onlyInGoroutines]
    exact ((GoMap.range_perm _ _).nodup_iff.mpr
      (nodup_keys_buildMap b [] (by simp [GoMap.keys]))).filter _

/-- C10, as stated, fails: the same two record lists, compared under two
iteration orders of `walkDirMap`, give different `ScanComparison` values. -/
theorem compareScanResults_order_varies :
    compareScanResults 0 0 [⟨"a", ⟨false, 1⟩⟩, ⟨"b", ⟨false, 1⟩⟩] [] ≠
      compareScanResults 1 0 [⟨"a", ⟨false, 1⟩⟩, ⟨"b", ⟨false, 1⟩⟩] [] := by
  decide

/-- C10, amended. Any two calls of `compareScanResults` on the same record lists
agree on all eight aggregate fields, and their `OnlyInWalkDir` lists, and their
`OnlyInGoroutines` lists, hold the same paths with the same multiplicities;
only the element order may differ. -/
theorem compareScanResults_deterministic_up_to_order (seedW seedG seedW' seedG' : Nat)
    (a b : List ScannedFile) :
    compareScanResults seedW seedG a b =
      { compareScanResults seedW' seedG' a b with
          OnlyInWalkDir := (compareScanResults seedW seedG a b).OnlyInWalkDir
          OnlyInGoroutines := (compareScanResults seedW seedG a b).OnlyInGoroutines } ∧
    ((compareScanResults seedW seedG a b).OnlyInWalkDir).Perm
      (compareScanResults seedW' seedG' a b).OnlyInWalkDir ∧
    ((compareScanResults seedW seedG a b).OnlyInGoroutines).Perm
      (compareScanResults seedW' seedG' a b).OnlyInGoroutines := by
  refine ⟨?_, ?_, ?_⟩
  · unfold compareScanResults
    simp
  · rw [compareScanResults_onlyInWalkDir, compareScanResults_onlyInWalkDir]
    exact ((GoMap.range_perm _ _).trans (GoMap.range_perm _ _).symm).filter _
  · rw [compareScanResults_onlyInGoroutines, compareScanResults_onlyInGoroutines]
    exact ((GoMap.range_perm _ _).trans (GoMap.range_perm _ _).symm).filter _

theorem walkDirLoop_goroutine_fields (l : List ScannedFile) (m : GoMap) (c : ScanComparison) :
    (walkDirLoop l (m, c)).2.TotalGoroutineFiles = c.TotalGoroutineFiles ∧
    (walkDirLoop l (m, c)).2.TotalGoroutineDirs = c.TotalGoroutineDirs ∧
    (walkDirLoop l (m, c)).2.TotalGoroutineSize = c.TotalGoroutineSize := by
  induction l generalizing m c with
  | nil => simp [walkDirLoop]
  | cons f rest ih =>
    simp only [walkDirLoop]
    split <;> rw [(ih _ _).1, (ih _ _).2.1, (ih _ _).2.2] <;> simp

theorem compareScanResults_walkDir_fields (seedW seedG : Nat) (a b : List ScannedFile)
    (ha : (a.length : Int) < 2 ^ 63) :
    (compareScanResults seedW seedG a b).TotalWalkDirDirs = dirCount a ∧
    (compareScanResults seedW seedG a b).TotalWalkDirFiles = fileCount a ∧
    (compareScanResults seedW seedG a b).TotalWalkDirSize = wrapInt64 (fileSizeSum a) ∧
    (compareScanResults seedW seedG a b).TotalWalkDirObjects = fileCount a + dirCount a := by
  have hc := dirCount_add_fileCount a
  have h1 := walkDirLoop_snd a [] ScanComparison.zero (by simp [ScanComparison.zero])
    (by simp [ScanComparison.zero]) (by simpa [ScanComparison.zero] using ha)
    (by simp [ScanComparison.zero, wrapInt64])
  unfold compareScanResults
  simp only []
  rw [(goroutineLoop_walkDir_fields _ _ _).1, (goroutineLoop_walkDir_fields _ _ _).2.1,
    (goroutineLoop_walkDir_fields _ _ _).2.2.1, (goroutineLoop_walkDir_fields _ _ _).2.2.2]
  rw [h1]
  simp only [ScanComparison.zero, zero_add]
  refine ⟨trivial, trivial, trivial, ?_⟩
  apply wrapInt64_of_range <;> omega

theorem compareScanResults_goroutine_fields (seedW seedG : Nat) (a b : List ScannedFile)
    (hb : (b.length : Int) < 2 ^ 63) :
    (compareScanResults seedW seedG a b).TotalGoroutineDirs = dirCount b ∧
    (compareScanResults seedW seedG a b).TotalGoroutineFiles = fileCount b ∧
    (compareScanResults seedW seedG a b).TotalGoroutineSize = wrapInt64 (fileSizeSum b) ∧
    (compareScanResults seedW seedG a b).TotalGoroutineObjects = fileCount b + dirCount b := by
  have hc := dirCount_add_fileCount b
  have hw := walkDirLoop_goroutine_fields a [] ScanComparison.zero
  unfold compareScanResults
  simp only []
  generalize hc1 : ({ (walkDirLoop a ([], ScanComparison.zero)).2 with
      TotalWalkDirObjects := wrapInt64
        ((walkDirLoop a ([], ScanComparison.zero)).2.TotalWalkDirFiles +
          (walkDirLoop a ([], ScanComparison.zero)).2.TotalWalkDirDirs) } : ScanComparison) = c1
  have g1 : c1.TotalGoroutineFiles = 0 := by rw [← hc1]; simpa [ScanComparison.zero] using hw.1
  have g2 : c1.TotalGoroutineDirs = 0 := by rw [← hc1]; simpa [ScanComparison.zero] using hw.2.1
  have g3 : c1.TotalGoroutineSize = 0 := by rw [← hc1]; simpa [ScanComparison.zero] using hw.2.2
  have h2 := goroutineLoop_snd b [] c1
    (by rw [g2]) (by rw [g1]) (by rw [g1, g2]; simpa using hb) (by rw [g3]; simp [wrapInt64])
  rw [h2]
  simp only [g1, g2, g3, zero_add]
  refine ⟨trivial, trivial, trivial, ?_⟩
  apply wrapInt64_of_range <;> omega

/-- C7, as stated, fails on the size total: two files of 2^62 bytes each sum to
2^63, and the `int64` accumulator holds -2^63. -/
theorem compareScanResults_size_wraps :
    (compareScanResults 0 0 [⟨"a", ⟨false, 2 ^ 62⟩⟩, ⟨"b", ⟨false, 2 ^ 62⟩⟩] []).TotalWalkDirSize
      ≠ fileSizeSum [⟨"a", ⟨false, 2 ^ 62⟩⟩, ⟨"b", ⟨false, 2 ^ 62⟩⟩] := by
  decide

/-- C7, amended. For record lists of Go slice length (below 2^63),
`compareScanResults` sets `TotalWalkDirDirs` to the number of directory records
of the first list, `TotalWalkDirFiles` to the number of its other records,
`TotalWalkDirSize` to the sum of `Info.Size()` over its non-directory records
reduced to `int64` (the exact sum whenever that fits in `int64`), and
`TotalWalkDirObjects` to files plus directories, which is the length of the
list; the four `TotalGoroutine*` fields are the same functions of the second
list alone. -/
theorem compareScanResults_aggregates (seedW seedG : Nat) (a b : List ScannedFile)
    (ha : (a.length : Int) < 2 ^ 63) (hb : (b.length : Int) < 2 ^ 63) :
    ((compareScanResults seedW seedG a b).TotalWalkDirDirs = dirCount a ∧
      (compareScanResults seedW seedG a b).TotalWalkDirFiles = fileCount a ∧
      (compareScanResults seedW seedG a b).TotalWalkDirSize = wrapInt64 (fileSizeSum a) ∧
      (-2 ^ 63 ≤ fileSizeSum a → fileSizeSum a < 2 ^ 63 →
        (compareScanResults seedW seedG a b).TotalWalkDirSize = fileSizeSum a) ∧
      (compareScanResults seedW seedG a b).TotalWalkDirObjects =
        (compareScanResults seedW seedG a b).TotalWalkDirFiles +
          (compareScanResults seedW seedG a b).TotalWalkDirDirs ∧
      (compareScanResults seedW seedG a b).TotalWalkDirObjects = a.length) ∧
    ((compareScanResults seedW seedG a b).TotalGoroutineDirs = dirCount b ∧
      (compareScanResults seedW seedG a b).TotalGoroutineFiles = fileCount b ∧
      (compareScanResults seedW seedG a b).TotalGoroutineSize = wrapInt64 (fileSizeSum b) ∧
      (-2 ^ 63 ≤ fileSizeSum b → fileSizeSum b < 2 ^ 63 →
        (compareScanResults seedW seedG a b).TotalGoroutineSize = fileSizeSum b) ∧
      (compareScanResults seedW seedG a b).TotalGoroutineObjects =
        (compareScanResults seedW seedG a b).TotalGoroutineFiles +
          (compareScanResults seedW seedG a b).TotalGoroutineDirs ∧
      (compareScanResults seedW seedG a b).TotalGoroutineObjects = b.length) := by
  obtain ⟨w1, w2, w3, w4⟩ := compareScanResults_walkDir_fields seedW seedG a b ha
  obtain ⟨g1, g2, g3, g4⟩ := compareScanResults_goroutine_fields seedW seedG a b hb
  have hca := dirCount_add_fileCount a
  have hcb := dirCount_add_fileCount b
  refine ⟨⟨w1, w2, w3, ?_, ?_, ?_⟩, ⟨g1, g2, g3, ?_, ?_, ?_⟩⟩
  · intro h1 h2
    rw [w3, wrapInt64_of_range _ h1 h2]
  · rw [w4, w1, w2]
  · rw [w4]; omega
  · intro h1 h2
    rw [g3, wrapInt64_of_range _ h1 h2]
  · rw [g4, g1, g2]
  · rw [g4]; omega

theorem compareScanResults_aggregates_witness :
    (([⟨"r", ⟨true, 4096⟩⟩, ⟨"r/a", ⟨false, 3⟩⟩] : List ScannedFile).length : Int) < 2 ^ 63 ∧
    (compareScanResults 0 0 [⟨"r", ⟨true, 4096⟩⟩, ⟨"r/a", ⟨false, 3⟩⟩]
      [⟨"r/a", ⟨false, 3⟩⟩, ⟨"r", ⟨true, 4096⟩⟩]).TotalWalkDirSize = 3 :=
  ⟨by decide,
    ((compareScanResults_aggregates 0 0 [⟨"r", ⟨true, 4096⟩⟩, ⟨"r/a", ⟨false, 3⟩⟩]
      [⟨"r/a", ⟨false, 3⟩⟩, ⟨"r", ⟨true, 4096⟩⟩] (by decide) (by decide)).1.2.2.2.1
        (by decide) (by decide)).trans (by decide)⟩

/-! ## The permit pool size -/

/-- C5, as stated, fails: at `numCPU = 0` the multiplier is reset to 1, so the
pool holds one permit whatever the multiplier; and the `int` product wraps. -/
theorem semaphoreCap_not_max_formula :
    semaphoreCap 0 2 = some 1 ∧ semaphoreCap 0 2 ≠ some (max 1 0 * 2) ∧
    semaphoreCap (2 ^ 32) (2 ^ 32) = some 0 ∧
    semaphoreCap (2 ^ 32) (2 ^ 32) ≠ some (max 1 (2 ^ 32) * 2 ^ 32) := by
  decide

/-- C5, amended. For `numCPU >= 1` and `concurrencyMultiplier >= 1` whose product
fits in `int`, the capacity of the permit pool is
`numCPU * concurrencyMultiplier = max(1, numCPU) * concurrencyMultiplier`; for
`numCPU = 0` it is 1, whatever the multiplier. -/
theorem semaphoreCap_eq (numCPU concurrencyMultiplier : Int) (hm : 1 ≤ concurrencyMultiplier) :
    (numCPU = 0 → semaphoreCap numCPU concurrencyMultiplier = some 1) ∧
    (1 ≤ numCPU → numCPU * concurrencyMultiplier < 2 ^ 63 →
      semaphoreCap numCPU concurrencyMultiplier =
        some (max 1 numCPU * concurrencyMultiplier).toNat ∧
      ((max 1 numCPU * concurrencyMultiplier).toNat : Int) =
        max 1 numCPU * concurrencyMultiplier) := by
  constructor
  · intro h
    subst h
    simp [semaphoreCap, wrapInt64]
  · intro h1 h2
    have hmax : max 1 numCPU = numCPU := max_eq_right h1
    have hpos : 0 < numCPU * concurrencyMultiplier := by positivity
    have hne : numCPU ≠ 0 := by omega
    have hw : wrapInt64 (numCPU * concurrencyMultiplier) = numCPU * concurrencyMultiplier :=
      wrapInt64_of_range _ (by omega) h2
    rw [hmax]
    refine ⟨?_, by omega⟩
    simp only [semaphoreCap, hne, ↓reduceIte, hw]
    rw [if_neg (by omega)]

theorem semaphoreCap_eq_witness :
    (1 : Int) ≤ 3 ∧ semaphoreCap 4 3 = some 12 :=
  ⟨by decide, ((semaphoreCap_eq 4 3 (by decide)).2 (by decide) (by decide)).1.trans (by decide)⟩

/-! ## The machine: one step -/

theorem set_decomp {α : Type} {l : List α} {i : Nat} {t : α} (h : l[i]? = some t) :
    ∃ l1 l2, l = l1 ++ t :: l2 ∧ l1.length = i ∧ ∀ t', l.set i t' = l1 ++ t' :: l2 := by
  induction l generalizing i with
  | nil => simp at h
  | cons a l ih =>
    cases i with
    | zero =>
      simp only [List.getElem?_cons_zero, Option.some.injEq] at h
      subst h
      exact ⟨[], l, rfl, rfl, fun _ => rfl⟩
    | succ i =>
      simp only [List.getElem?_cons_succ] at h
      obtain ⟨l1, l2, h1, h2, h3⟩ := ih h
      refine ⟨a :: l1, l2, by simp [h1], by simp [h2], fun t' => ?_⟩
      simp [List.set_cons_succ, h3]

theorem stepTask_cases {join : String → String → String} {cap : Nat} {s s' : State} {i : Nat}
    (h : stepTask join cap s i = some s') :
    ∃ l1 t l2, s.tasks = l1 ++ t :: l2 ∧ l1.length = i ∧ TaskStep join cap s l1 t l2 s' := by
  unfold stepTask at h
  split at h
  · exact absurd h (by simp)
  · rename_i t ht
    obtain ⟨l1, l2, hl, hlen, hset⟩ := set_decomp ht
    refine ⟨l1, t, l2, hl, hlen, ?_⟩
    simp only [hset] at h
    split at h
    · rename_i hpc
      split at h
      · rename_i hc
        cases h
        exact TaskStep.acquire hpc hc
      · exact absurd h (by simp)
    · rename_i hpc
      split at h
      · rename_i err he
        cases h
        exact TaskStep.listFail err hpc he
      · rename_i entries he
        cases h
        exact TaskStep.listOk entries hpc he
    · rename_i buffer hpc
      cases h
      exact TaskStep.append buffer hpc
    · rename_i entry rest buffer hpc
      split at h
      · rename_i err he
        cases h
        exact TaskStep.infoFail entry rest buffer err hpc he
      · rename_i info he
        split at h
        · rename_i hd
          cases h
          exact TaskStep.spawn entry rest buffer info hpc he hd
        · rename_i hd
          cases h
          exact TaskStep.record entry rest buffer info hpc he (by simpa using hd)
    · rename_i hpc
      split at h
      · rename_i hc
        cases h
        exact TaskStep.release hpc hc
      · exact absurd h (by simp)
    · rename_i hpc
      cases h
      exact TaskStep.done hpc
    · exact absurd h (by simp)

theorem publish_tasks (s : State) (err : PathError) : (publish s err).tasks = s.tasks := by
  unfold publish; split <;> [rfl; (split <;> rfl)]

theorem publish_files (s : State) (err : PathError) : (publish s err).files = s.files := by
  unfold publish; split <;> [rfl; (split <;> rfl)]

theorem publish_semaphore (s : State) (err : PathError) :
    (publish s err).semaphore = s.semaphore := by
  unfold publish; split <;> [rfl; (split <;> rfl)]

theorem publish_wg (s : State) (err : PathError) : (publish s err).wg = s.wg := by
  unfold publish; split <;> [rfl; (split <;> rfl)]

theorem publish_doneChan (s : State) (err : PathError) :
    (publish s err).doneChan = s.doneChan := by
  unfold publish; split <;> [rfl; (split <;> rfl)]

theorem publish_waiter (s : State) (err : PathError) : (publish s err).waiter = s.waiter := by
  unfold publish; split <;> [rfl; (split <;> rfl)]

theorem publish_main (s : State) (err : PathError) :
    (s.main = .parked ∧ (publish s err).main = .wokenErr err) ∨
    (s.main ≠ .parked ∧ (publish s err).main = s.main) := by
  unfold publish
  split
  · rename_i h
    exact Or.inl ⟨h, rfl⟩
  · rename_i h
    refine Or.inr ⟨fun hp => h hp, ?_⟩
    split <;> rfl

theorem inv_publish {cap : Nat} {s : State} (hinv : Inv cap s) (err : PathError) :
    Inv cap (publish s err) := by
  have hm := publish_main s err
  constructor
  · rw [publish_semaphore, publish_tasks]; exact hinv.sem_eq
  · rw [publish_semaphore]; exact hinv.sem_le
  · rw [publish_wg, publish_tasks]; exact hinv.wg_eq
  · rw [publish_tasks]; exact hinv.permit
  · rw [publish_waiter]
    rcases hm with ⟨_, h2⟩ | ⟨_, h2⟩
    · rw [h2]; intro h; simp at h
    · rw [h2]; exact hinv.early
  · rw [publish_tasks]
    rcases hm with ⟨_, h2⟩ | ⟨_, h2⟩
    · rw [h2]; intro h; simp at h
    · rw [h2]; exact hinv.stat_tasks
  · rw [publish_waiter]
    rcases hm with ⟨_, h2⟩ | ⟨_, h2⟩
    · rw [h2]; intro h; simp at h
    · rw [h2]; exact hinv.started
  · rw [publish_doneChan]
    rcases hm with ⟨_, h2⟩ | ⟨_, h2⟩
    · rw [h2]; intro h; simp at h
    · rw [h2]; exact hinv.parked
  · rw [publish_waiter, publish_doneChan]; exact hinv.exited
  · rw [publish_waiter, publish_wg]; exact hinv.closing
  · rw [publish_waiter, publish_doneChan]; exact hinv.closed
  · rw [publish_doneChan]
    rcases hm with ⟨_, h2⟩ | ⟨_, h2⟩
    · rw [h2]; intro h; simp at h
    · rw [h2]; exact hinv.woken
  · rw [publish_doneChan, publish_files]
    rcases hm with ⟨_, h2⟩ | ⟨_, h2⟩
    · rw [h2]; intro files h; simp at h
    · rw [h2]; exact hinv.returned

theorem taskStep_unfinished {join : String → String → String} {cap : Nat} {s s' : State}
    {l1 l2 : List Task} {t : Task} (h : TaskStep join cap s l1 t l2 s') :
    t.unfinished = true := by
  cases h <;> simp_all [Task.unfinished]

/-- A step that leaves the caller, the waiting goroutine and `doneChan` alone, taken
while some task has not returned, preserves the control part of the invariant. -/
theorem inv_of_task_step {cap : Nat} {s s' : State} (hinv : Inv cap s) (t : Task)
    (ht : t ∈ s.tasks) (hun : t.unfinished = true)
    (hm : s'.main = s.main) (hw : s'.waiter = s.waiter) (hd : s'.doneChan = s.doneChan)
    (h1 : s'.semaphore = s'.tasks.countP Task.holding) (h2 : s'.semaphore ≤ cap)
    (h3 : s'.wg = s'.tasks.countP Task.unfinished) (h4 : ∀ t ∈ s'.tasks, t.permitOk) :
    Inv cap s' := by
  have hwg : 0 < s.wg := by
    rw [hinv.wg_eq]; exact List.countP_pos_iff.mpr ⟨t, ht, hun⟩
  have hnc : ¬ (s.waiter = .close ∨ s.waiter = .exited) := fun h => by
    have := hinv.closing h; omega
  have hdone : s.doneChan = false := by
    cases hdc : s.doneChan
    · rfl
    · exact absurd (Or.inr (hinv.closed hdc)) hnc
  have hns : s.main ≠ .stat := fun h => by
    have := hinv.stat_tasks h
    rw [this] at ht
    simp at ht
  constructor
  · exact h1
  · exact h2
  · exact h3
  · exact h4
  · rw [hm, hw]; exact hinv.early
  · rw [hm]; intro h; exact absurd h hns
  · rw [hm, hw]; exact hinv.started
  · rw [hm, hd]; exact hinv.parked
  · rw [hw]; intro h; exact absurd (Or.inr h) hnc
  · rw [hw]; intro h; exact absurd h hnc
  · rw [hd, hdone]; intro h; simp at h
  · rw [hm, hd]; intro h; have := hinv.woken h; rw [hdone] at this; simp at this
  · rw [hm, hd]; intro files h; have := (hinv.returned files h).2; rw [hdone] at this
    simp at this

theorem forall_mem_replace {P : Task → Prop} {l1 l2 : List Task} {t t' : Task}
    (h : ∀ x ∈ l1 ++ t :: l2, P x) (ht' : P t') : ∀ x ∈ l1 ++ t' :: l2, P x := by
  intro x hx
  simp only [List.mem_append, List.mem_cons] at hx h
  rcases hx with hx | hx | hx
  · exact h x (Or.inl hx)
  · rw [hx]; exact ht'
  · exact h x (Or.inr (Or.inr hx))

theorem inv_taskStep {join : String → String → String} {cap : Nat} {s s' : State}
    {l1 l2 : List Task} {t : Task} (hinv : Inv cap s) (hl : s.tasks = l1 ++ t :: l2)
    (h : TaskStep join cap s l1 t l2 s') : Inv cap s' := by
  have hun := taskStep_unfinished h
  have ht : t ∈ s.tasks := by rw [hl]; simp
  have hsem := hinv.sem_eq
  have hwg := hinv.wg_eq
  have hle := hinv.sem_le
  have hp := hinv.permit
  have hpt := hp t ht
  rw [hl] at hsem hwg hp
  simp only [List.countP_append, List.countP_cons] at hsem hwg
  cases h with
  | acquire hpc hc =>
    simp only [Task.holding, Task.unfinished, Task.permitOk, hpc, Bool.false_eq_true,
      ↓reduceIte] at hsem hwg hpt
    refine inv_of_task_step hinv t ht hun rfl rfl rfl ?_ ?_ ?_ ?_
    · simp only [List.countP_append, List.countP_cons, List.countP_nil, Task.holding,
        Bool.false_eq_true, ↓reduceIte]
      omega
    · simp only; omega
    · simp only [List.countP_append, List.countP_cons, List.countP_nil, Task.unfinished,
        Bool.false_eq_true, ↓reduceIte]
      omega
    · apply forall_mem_replace hp
      simp only [Task.permitOk]
      omega
  | listFail err hpc he =>
    simp only [Task.holding, Task.unfinished, Task.permitOk, hpc, Bool.false_eq_true,
      ↓reduceIte] at hsem hwg hpt
    apply inv_publish
    refine inv_of_task_step hinv t ht hun rfl rfl rfl ?_ ?_ ?_ ?_
    · simp only [List.countP_append, List.countP_cons, List.countP_nil, Task.holding,
        Bool.false_eq_true, ↓reduceIte]
      omega
    · simp only; omega
    · simp only [List.countP_append, List.countP_cons, List.countP_nil, Task.unfinished,
        Bool.false_eq_true, ↓reduceIte]
      omega
    · apply forall_mem_replace hp
      simp only [Task.permitOk]
      omega
  | listOk entries hpc he =>
    simp only [Task.holding, Task.unfinished, Task.permitOk, hpc, Bool.false_eq_true,
      ↓reduceIte] at hsem hwg hpt
    refine inv_of_task_step hinv t ht hun rfl rfl rfl ?_ ?_ ?_ ?_
    · simp only [List.countP_append, List.countP_cons, List.countP_nil, Task.holding,
        Bool.false_eq_true, ↓reduceIte]
      omega
    · simp only; omega
    · simp only [List.countP_append, List.countP_cons, List.countP_nil, Task.unfinished,
        Bool.false_eq_true, ↓reduceIte]
      omega
    · apply forall_mem_replace hp
      simp only [Task.permitOk]
      omega
  | append buffer hpc =>
    simp only [Task.holding, Task.unfinished, Task.permitOk, hpc, Bool.false_eq_true,
      ↓reduceIte] at hsem hwg hpt
    refine inv_of_task_step hinv t ht hun rfl rfl rfl ?_ ?_ ?_ ?_
    · simp only [List.countP_append, List.countP_cons, List.countP_nil, Task.holding,
        Bool.false_eq_true, ↓reduceIte]
      omega
    · simp only; omega
    · simp only [List.countP_append, List.countP_cons, List.countP_nil, Task.unfinished,
        Bool.false_eq_true, ↓reduceIte]
      omega
    · apply forall_mem_replace hp
      simp only [Task.permitOk]
      omega
  | infoFail entry rest buffer err hpc he =>
    simp only [Task.holding, Task.unfinished, Task.permitOk, hpc, Bool.false_eq_true,
      ↓reduceIte] at hsem hwg hpt
    apply inv_publish
    refine inv_of_task_step hinv t ht hun rfl rfl rfl ?_ ?_ ?_ ?_
    · simp only [List.countP_append, List.countP_cons, List.countP_nil, Task.holding,
        Bool.false_eq_true, ↓reduceIte]
      omega
    · simp only; omega
    · simp only [List.countP_append, List.countP_cons, List.countP_nil, Task.unfinished,
        Bool.false_eq_true, ↓reduceIte]
      omega
    · apply forall_mem_replace hp
      simp only [Task.permitOk]
      omega
  | spawn entry rest buffer info hpc he hd =>
    simp only [Task.holding, Task.unfinished, Task.permitOk, hpc, Bool.false_eq_true,
      ↓reduceIte] at hsem hwg hpt
    refine inv_of_task_step hinv t ht hun rfl rfl rfl ?_ ?_ ?_ ?_
    · simp only [List.countP_append, List.countP_cons, List.countP_nil, Task.holding,
        Bool.false_eq_true, ↓reduceIte]
      omega
    · simp only; omega
    · simp only [List.countP_append, List.countP_cons, List.countP_nil, Task.unfinished,
        Bool.false_eq_true, ↓reduceIte]
      omega
    · intro x hx
      rw [List.mem_append] at hx
      rcases hx with hx | hx
      · revert x
        apply forall_mem_replace hp
        simp only [Task.permitOk]
        omega
      · simp only [List.mem_singleton] at hx
        subst hx
        simp [Task.permitOk]
  | record entry rest buffer info hpc he hd =>
    simp only [Task.holding, Task.unfinished, Task.permitOk, hpc, Bool.false_eq_true,
      ↓reduceIte] at hsem hwg hpt
    refine inv_of_task_step hinv t ht hun rfl rfl rfl ?_ ?_ ?_ ?_
    · simp only [List.countP_append, List.countP_cons, List.countP_nil, Task.holding,
        Bool.false_eq_true, ↓reduceIte]
      omega
    · simp only; omega
    · simp only [List.countP_append, List.countP_cons, List.countP_nil, Task.unfinished,
        Bool.false_eq_true, ↓reduceIte]
      omega
    · apply forall_mem_replace hp
      simp only [Task.permitOk]
      omega
  | release hpc hc =>
    simp only [Task.holding, Task.unfinished, Task.permitOk, hpc, Bool.false_eq_true,
      ↓reduceIte] at hsem hwg hpt
    refine inv_of_task_step hinv t ht hun rfl rfl rfl ?_ ?_ ?_ ?_
    · simp only [List.countP_append, List.countP_cons, List.countP_nil, Task.holding,
        Bool.false_eq_true, ↓reduceIte]
      omega
    · simp only; omega
    · simp only [List.countP_append, List.countP_cons, List.countP_nil, Task.unfinished,
        Bool.false_eq_true, ↓reduceIte]
      omega
    · apply forall_mem_replace hp
      simp only [Task.permitOk]
      omega
  | done hpc =>
    simp only [Task.holding, Task.unfinished, Task.permitOk, hpc, Bool.false_eq_true,
      ↓reduceIte] at hsem hwg hpt
    refine inv_of_task_step hinv t ht hun rfl rfl rfl ?_ ?_ ?_ ?_
    · simp only [List.countP_append, List.countP_cons, List.countP_nil, Task.holding,
        Bool.false_eq_true, ↓reduceIte]
      omega
    · simp only; omega
    · simp only [List.countP_append, List.countP_cons, List.countP_nil, Task.unfinished,
        Bool.false_eq_true, ↓reduceIte]
      omega
    · apply forall_mem_replace hp
      simp only [Task.permitOk]
      omega

theorem inv_init (cap : Nat) : Inv cap State.init := by
  constructor <;> simp [State.init]

theorem inv_stepWaiter {cap : Nat} {s s' : State} (hinv : Inv cap s)
    (h : stepWaiter s = some s') : Inv cap s' := by
  obtain ⟨a1, a2, a3, a4, a5, a6, a7, a8, a9, a10, a11, a12, a13⟩ := hinv
  unfold DirScan.stepWaiter at h
  split at h
  · exact absurd h (by simp)
  · split at h
    · cases h
      constructor <;> simp_all
    · exact absurd h (by simp)
  · split at h
    · cases h
      constructor <;> simp_all
    · cases h
      constructor <;> simp_all
  · exact absurd h (by simp)

theorem inv_stepMain {cap : Nat} {s s' : State} {rootDir : String} {root : Root}
    {pickErr : Bool} (hinv : Inv cap s) (h : stepMain rootDir root pickErr s = some s') :
    Inv cap s' := by
  obtain ⟨a1, a2, a3, a4, a5, a6, a7, a8, a9, a10, a11, a12, a13⟩ := hinv
  unfold DirScan.stepMain at h
  split at h
  · split at h
    · cases h
      constructor <;> simp_all
    · cases h
      constructor <;> simp_all [Task.holding, Task.unfinished, Task.permitOk]
  · cases h
    constructor <;> simp_all
  · split at h
    · split at h
      · cases h
        constructor <;> simp_all
      · cases h
        constructor <;> simp_all
    · cases h
      constructor <;> simp_all
    · cases h
      constructor <;> simp_all
    · cases h
      constructor <;> simp_all
  · exact absurd h (by simp)
  · cases h
    constructor <;> simp_all
  · cases h
    rename_i err hmain
    constructor
    · simpa using a1
    · simpa using a2
    · simpa using a3
    · simpa using a4
    · simp
    · simp
    · simp
    · simp
    · simpa using a9
    · simpa using a10
    · simpa using a11
    · simp
    · simp
  · exact absurd h (by simp)

/-! ## The machine: invariant of every execution -/

theorem inv_step {join : String → String → String} {cap : Nat} {rootDir : String}
    {root : Root} {s s' : State} {a : Action} (hinv : Inv cap s)
    (h : step join cap rootDir root s a = some s') : Inv cap s' := by
  cases a with
  | main pickErr => exact inv_stepMain hinv h
  | waiter => exact inv_stepWaiter hinv h
  | task i =>
    obtain ⟨l1, t, l2, hl, _, hstep⟩ := stepTask_cases h
    exact inv_taskStep hinv hl hstep

theorem exec_cons (join : String → String → String) (cap : Nat) (rootDir : String)
    (root : Root) (s : State) (a : Action) (rest : List Action) :
    exec join cap rootDir root s (a :: rest) =
      exec join cap rootDir root ((step join cap rootDir root s a).getD s) rest := rfl

theorem inv_exec {join : String → String → String} {cap : Nat} {rootDir : String}
    {root : Root} {s : State} (hinv : Inv cap s) (schedule : List Action) :
    Inv cap (DirScan.exec join cap rootDir root s schedule) := by
  induction schedule generalizing s with
  | nil => exact hinv
  | cons a rest ih =>
    rw [exec_cons]
    cases hs : DirScan.step join cap rootDir root s a with
    | none => exact ih hinv
    | some s' => exact ih (inv_step hinv hs)

theorem inv_of_exec (join : String → String → String) (cap : Nat) (rootDir : String)
    (root : Root) (schedule : List Action) :
    Inv cap (exec join cap rootDir root State.init schedule) :=
  inv_exec (inv_init cap) schedule

/-- C6. In every execution of `scanUsingGoroutines`, at every point, the number
of `scanDirectory` tasks holding a permit equals the number of elements in the
buffer of `semaphore` and is at most its capacity, the value of
`numCPU*concurrencyMultiplier` at the `make`; a task holds a permit exactly
between its one send on `semaphore` and its one receive from it, and a task
that has returned, by the error path or the normal one, has sent once and
received once. -/
theorem permits_bounded (join : String → String → String) (rootDir : String) (root : Root)
    (numCPU concurrencyMultiplier : Int) (cap : Nat)
    (_ : semaphoreCap numCPU concurrencyMultiplier = some cap) (schedule : List Action) :
    ((exec join cap rootDir root State.init schedule).tasks.countP Task.holding =
        (exec join cap rootDir root State.init schedule).semaphore) ∧
    ((exec join cap rootDir root State.init schedule).tasks.countP Task.holding ≤ cap) ∧
    (∀ t ∈ (exec join cap rootDir root State.init schedule).tasks,
      t.acquired ≤ 1 ∧ t.released ≤ t.acquired ∧
      (t.holding = true ↔ t.acquired = 1 ∧ t.released = 0) ∧
      (t.pc = .finished → t.acquired = 1 ∧ t.released = 1)) := by
  have hinv := inv_of_exec join cap rootDir root schedule
  refine ⟨hinv.sem_eq.symm, ?_, ?_⟩
  · rw [← hinv.sem_eq]; exact hinv.sem_le
  · intro t ht
    have hp := hinv.permit t ht
    unfold Task.permitOk at hp
    unfold Task.holding
    split at hp <;> rename_i hpc <;> simp only [hpc] <;> simp <;> omega

/-! ## The sequential walker -/

theorem recordsBefore_append (a b : List Visit) :
    recordsBefore (a ++ b) =
      if firstFailure a = none then recordsBefore a ++ recordsBefore b else recordsBefore a := by
  induction a with
  | nil => simp [recordsBefore, firstFailure]
  | cons v vs ih =>
    cases v with
    | record f =>
      simp only [List.cons_append, recordsBefore, firstFailure]
      have happ : vs.append b = vs ++ b := rfl
      rw [happ, ih]
      split <;> simp
    | failure err => simp [recordsBefore, firstFailure]

theorem firstFailure_append (a b : List Visit) :
    firstFailure (a ++ b) =
      if firstFailure a = none then firstFailure b else firstFailure a := by
  induction a with
  | nil => simp [firstFailure]
  | cons v vs ih =>
    cases v with
    | record f =>
      simp only [List.cons_append, firstFailure]
      have happ : vs.append b = vs ++ b := rfl
      rw [happ]
      exact ih
    | failure err => simp [firstFailure]

mutual
theorem walkDir_eq_visits (join : String → String → String) (path : String)
    (files : List ScannedFile) :
    (d : FsNode) → walkDir join path files d =
      (files ++ recordsBefore (visits join path d), firstFailure (visits join path d))
  | .file name size fails => by
    cases fails <;> simp [walkDir, visits, FsNode.info, FsNode.infoFails, FsNode.fileInfo,
      recordsBefore, firstFailure]
  | .dir name size fails listFails entries => by
    cases fails
    · cases listFails
      · simp only [walkDir, visits, FsNode.info, FsNode.infoFails, FsNode.fileInfo,
          Bool.false_eq_true, ↓reduceIte, recordsBefore, firstFailure]
        rw [walkDirEntries_eq_visits join path _ entries]
        simp
      · simp [walkDir, visits, FsNode.info, FsNode.infoFails, FsNode.fileInfo,
          recordsBefore, firstFailure]
    · simp [walkDir, visits, FsNode.info, FsNode.infoFails, FsNode.fileInfo,
        recordsBefore, firstFailure]
theorem walkDirEntries_eq_visits (join : String → String → String) (path : String)
    (files : List ScannedFile) :
    (dirs : List FsNode) → walkDirEntries join path files dirs =
      (files ++ recordsBefore (entryVisits join path dirs),
        firstFailure (entryVisits join path dirs))
  | [] => by simp [walkDirEntries, entryVisits, recordsBefore, firstFailure]
  | d1 :: dirs => by
    simp only [walkDirEntries, entryVisits, recordsBefore_append, firstFailure_append]
    rw [walkDir_eq_visits join (join path d1.name) files d1]
    cases hf : firstFailure (visits join (join path d1.name) d1) with
    | none =>
      simp only [↓reduceIte]
      rw [walkDirEntries_eq_visits join path _ dirs]
      simp
    | some err => simp
end

/-- The sequential walker returns the records of the visits before the first
failure, and the first failure. -/
theorem scanUsingWalkDir_eq (join : String → String → String) (rootDir : String)
    (root : Root) :
    scanUsingWalkDir join rootDir root =
      (recordsBefore (visits join rootDir root.lstatNode),
        firstFailure (visits join rootDir root.lstatNode)) := by
  unfold scanUsingWalkDir
  generalize root.lstatNode = d
  split
  · rename_i h
    cases d <;> simp_all [visits, FsNode.infoFails, recordsBefore, firstFailure]
  · rw [walkDir_eq_visits]
    simp

mutual
theorem visits_clean (join : String → String → String) (path : String) :
    (d : FsNode) → d.clean = true →
      firstFailure (visits join path d) = none ∧
      (recordsBefore (visits join path d)).map ScannedFile.Path = treePaths join path d
  | .file name size fails, h => by
    simp only [FsNode.clean, Bool.not_eq_true'] at h
    subst h
    simp [visits, firstFailure, recordsBefore, treePaths]
  | .dir name size fails listFails entries, h => by
    simp only [FsNode.clean, Bool.and_eq_true, Bool.not_eq_true'] at h
    obtain ⟨⟨h1, h2⟩, h3⟩ := h
    subst h1 h2
    have ih := entryVisits_clean join path entries h3
    simp [visits, firstFailure, recordsBefore, treePaths, ih.1, ih.2]
theorem entryVisits_clean (join : String → String → String) (path : String) :
    (es : List FsNode) → cleanList es = true →
      firstFailure (entryVisits join path es) = none ∧
      (recordsBefore (entryVisits join path es)).map ScannedFile.Path =
        entryPaths join path es
  | [], _ => by simp [entryVisits, firstFailure, recordsBefore, entryPaths]
  | e :: es, h => by
    simp only [cleanList, Bool.and_eq_true] at h
    have ih1 := visits_clean join (join path e.name) e h.1
    have ih2 := entryVisits_clean join path es h.2
    simp [entryVisits, firstFailure_append, recordsBefore_append, entryPaths, ih1.1, ih1.2,
      ih2.1, ih2.2]
end

theorem scanUsingWalkDir_clean (join : String → String → String) (rootDir : String)
    (root : Root) (h : root.lstatNode.clean = true) :
    (scanUsingWalkDir join rootDir root).2 = none ∧
    (scanUsingWalkDir join rootDir root).1.map ScannedFile.Path =
      treePaths join rootDir root.lstatNode := by
  rw [scanUsingWalkDir_eq]
  exact visits_clean join rootDir root.lstatNode h

/-- C4, as stated, fails: on a root directory whose listing fails the walker
returns the error together with a non-empty slice, the record of the root. -/
theorem scanUsingWalkDir_partial_results :
    scanUsingWalkDir joinSlash "r" (.node (.dir "r" 4096 false true [])) =
      ([⟨"r", ⟨true, 4096⟩⟩], some ⟨"open", "r"⟩) := by
  decide

/-- C4, amended. The error `scanUsingWalkDir` returns is the first failure of the
pre-order walk (nil when there is none), and the slice returned with it holds
the records of the entries visited before that failure, which need not be
empty. The walk starts at what `os.Lstat` finds at the root path. -/
theorem scanUsingWalkDir_first_error (join : String → String → String) (rootDir : String)
    (root : Root) :
    (scanUsingWalkDir join rootDir root).2 =
      firstFailure (visits join rootDir root.lstatNode) ∧
    (scanUsingWalkDir join rootDir root).1 =
      recordsBefore (visits join rootDir root.lstatNode) := by
  rw [scanUsingWalkDir_eq]
  exact ⟨rfl, rfl⟩

/-! ## The machine on a clean tree -/

theorem clean_readDir (d : FsNode) (path : String) (hd : d.isDir = true)
    (hc : d.clean = true) : d.readDir path = .ok d.entries := by
  cases d with
  | file name size fails => simp [FsNode.isDir] at hd
  | dir name size fails listFails entries =>
    simp only [FsNode.clean, Bool.and_eq_true, Bool.not_eq_true'] at hc
    simp [FsNode.readDir, FsNode.entries, hc.1.2]

theorem clean_info (e : FsNode) (path : String) (hc : e.clean = true) :
    e.info path = .ok e.fileInfo := by
  cases e with
  | file name size fails =>
    simp only [FsNode.clean, Bool.not_eq_true'] at hc
    simp [FsNode.info, FsNode.infoFails, hc]
  | dir name size fails listFails entries =>
    simp only [FsNode.clean, Bool.and_eq_true, Bool.not_eq_true'] at hc
    simp [FsNode.info, FsNode.infoFails, hc.1.1]

theorem clean_stat (e : FsNode) (path : String) (hc : e.clean = true) :
    e.stat path = .ok e.fileInfo := by
  cases e with
  | file name size fails =>
    simp only [FsNode.clean, Bool.not_eq_true'] at hc
    simp [FsNode.stat, FsNode.infoFails, hc]
  | dir name size fails listFails entries =>
    simp only [FsNode.clean, Bool.and_eq_true, Bool.not_eq_true'] at hc
    simp [FsNode.stat, FsNode.infoFails, hc.1.1]

theorem root_clean_stat (root : Root) (rootDir : String) (hc : root.clean = true) :
    root.stat rootDir = .ok root.target.fileInfo := by
  cases root with
  | node d => exact clean_stat d rootDir hc
  | symlink name size lstatFails target =>
    simp only [Root.clean, Bool.and_eq_true, Bool.not_eq_true'] at hc
    simp only [Root.stat, hc.1, Bool.false_eq_true, ↓reduceIte, Root.target]
    exact clean_stat target rootDir hc.2

theorem root_clean_target (root : Root) (hc : root.clean = true) :
    root.target.clean = true := by
  cases root with
  | node d => exact hc
  | symlink name size lstatFails target =>
    simp only [Root.clean, Bool.and_eq_true] at hc
    exact hc.2

theorem clean_entries (d : FsNode) (hc : d.clean = true) : cleanList d.entries = true := by
  cases d with
  | file name size fails => simp [FsNode.entries, cleanList]
  | dir name size fails listFails entries =>
    simp only [FsNode.clean, Bool.and_eq_true, Bool.not_eq_true'] at hc
    simpa [FsNode.entries] using hc.2

theorem treePaths_eq (join : String → String → String) (path : String) (e : FsNode) :
    treePaths join path e = path :: entryPaths join path e.entries := by
  cases e <;> simp [treePaths, entryPaths, FsNode.entries]

theorem paths_step (join : String → String → String) {F F' T : List String}
    {l1 l2 : List Task} {t t' : Task} (news : List Task)
    (h : (F ++ (l1 ++ t :: l2).flatMap (Task.pending join)).Perm T)
    (hstep : (F' ++ (t'.pending join ++ news.flatMap (Task.pending join))).Perm
      (F ++ t.pending join)) :
    (F' ++ ((l1 ++ t' :: l2) ++ news).flatMap (Task.pending join)).Perm T := by
  rw [← Multiset.coe_eq_coe] at h hstep ⊢
  simp only [List.flatMap_append, List.flatMap_cons, ← Multiset.coe_add] at h hstep ⊢
  rw [← h]
  have e1 : (F' : Multiset String) + ((List.flatMap l1 (Task.pending join) : List String) +
      ((Task.pending join t' : List String) + (List.flatMap l2 (Task.pending join) : List String)) +
      (List.flatMap news (Task.pending join) : List String)) =
      ((F' : Multiset String) + ((Task.pending join t' : List String) +
        (List.flatMap news (Task.pending join) : List String))) +
      ((List.flatMap l1 (Task.pending join) : List String) +
        (List.flatMap l2 (Task.pending join) : List String)) := by abel
  rw [e1, hstep]
  abel

theorem paths_step_nil (join : String → String → String) {F F' T : List String}
    {l1 l2 : List Task} {t t' : Task}
    (h : (F ++ (l1 ++ t :: l2).flatMap (Task.pending join)).Perm T)
    (hstep : (F' ++ t'.pending join).Perm (F ++ t.pending join)) :
    (F' ++ (l1 ++ t' :: l2).flatMap (Task.pending join)).Perm T := by
  have := paths_step join [] h (by simpa using hstep)
  simpa using this

theorem cleanInv_taskStep {join : String → String → String} {cap : Nat} {rootDir : String}
    {root : Root} {s s' : State} {l1 l2 : List Task} {t : Task} (hinv : Inv cap s)
    (hc : CleanInv join rootDir root s) (hl : s.tasks = l1 ++ t :: l2)
    (h : TaskStep join cap s l1 t l2 s') : CleanInv join rootDir root s' := by
  have ht : t ∈ s.tasks := by rw [hl]; simp
  have hns : s.main ≠ .stat := fun h => by
    have := hinv.stat_tasks h
    rw [this] at ht
    simp at ht
  obtain ⟨hdir, hclean, hloop⟩ := hc.tasks_clean t ht
  have hcl := hc.tasks_clean
  have hpaths := hc.paths hns
  rw [hl] at hcl hpaths
  cases h with
  | acquire hpc hc' =>
    refine ⟨forall_mem_replace hcl ⟨hdir, hclean, trivial⟩, hc.no_err, hc.no_woken, hc.no_fail,
      fun h => absurd h hns, fun _ => ?_⟩
    exact paths_step_nil join hpaths (by simp [Task.pending, hpc])
  | listFail err hpc he =>
    rw [clean_readDir t.dir t.dirPath hdir hclean] at he
    cases he
  | listOk entries hpc he =>
    rw [clean_readDir t.dir t.dirPath hdir hclean] at he
    cases he
    refine ⟨forall_mem_replace hcl ⟨hdir, hclean, clean_entries t.dir hclean⟩, hc.no_err,
      hc.no_woken, hc.no_fail, fun h => absurd h hns, fun _ => ?_⟩
    exact paths_step_nil join hpaths (by simp [Task.pending, hpc])
  | append buffer hpc =>
    refine ⟨forall_mem_replace hcl ⟨hdir, hclean, trivial⟩, hc.no_err, hc.no_woken, hc.no_fail,
      fun h => absurd h hns, fun _ => ?_⟩
    exact paths_step_nil join hpaths (by simp [Task.pending, hpc, entryPaths])
  | infoFail entry rest buffer err hpc he =>
    simp only [hpc, cleanList, Bool.and_eq_true] at hloop
    rw [clean_info entry _ hloop.1] at he
    cases he
  | spawn entry rest buffer info hpc he hd =>
    simp only [hpc, cleanList, Bool.and_eq_true] at hloop
    refine ⟨?_, hc.no_err, hc.no_woken, hc.no_fail, fun h => absurd h hns, fun _ => ?_⟩
    · intro x hx
      rw [List.mem_append] at hx
      rcases hx with hx | hx
      · refine forall_mem_replace hcl ?_ x hx
        exact ⟨hdir, hclean, hloop.2⟩
      · simp only [List.mem_singleton] at hx
        subst hx
        exact ⟨hd, hloop.1, trivial⟩
    · refine paths_step join _ hpaths ?_
      simp only [Task.pending, hpc, List.map_append, List.map_cons, List.map_nil,
        List.flatMap_cons, List.flatMap_nil, List.append_nil, entryPaths, treePaths_eq,
        List.append_assoc, List.singleton_append, List.cons_append]
      refine List.Perm.append_left _ (List.Perm.append_left _ ?_)
      rw [List.nil_append]
      exact List.Perm.cons _ List.perm_append_comm
  | record entry rest buffer info hpc he hd =>
    simp only [hpc, cleanList, Bool.and_eq_true] at hloop
    refine ⟨forall_mem_replace hcl ⟨hdir, hclean, hloop.2⟩, hc.no_err, hc.no_woken,
      hc.no_fail, fun h => absurd h hns, fun _ => ?_⟩
    refine paths_step_nil join hpaths ?_
    have hent : entry.entries = [] := by
      cases entry with
      | file name size fails => rfl
      | dir name size fails listFails entries => simp [FsNode.isDir] at hd
    simp [Task.pending, hpc, entryPaths, treePaths_eq, hent]
  | release hpc hc' =>
    refine ⟨forall_mem_replace hcl ⟨hdir, hclean, trivial⟩, hc.no_err, hc.no_woken, hc.no_fail,
      fun h => absurd h hns, fun _ => ?_⟩
    exact paths_step_nil join hpaths (by simp [Task.pending, hpc])
  | done hpc =>
    refine ⟨forall_mem_replace hcl ⟨hdir, hclean, trivial⟩, hc.no_err, hc.no_woken, hc.no_fail,
      fun h => absurd h hns, fun _ => ?_⟩
    exact paths_step_nil join hpaths (by simp [Task.pending, hpc])

theorem cleanInv_init (join : String → String → String) (rootDir : String) (root : Root) :
    CleanInv join rootDir root State.init := by
  constructor <;> simp [State.init]

theorem cleanInv_stepWaiter {join : String → String → String} {rootDir : String}
    {root : Root} {s s' : State} (hc : CleanInv join rootDir root s)
    (h : stepWaiter s = some s') : CleanInv join rootDir root s' := by
  obtain ⟨c1, c2, c3, c4, c5, c6⟩ := hc
  unfold DirScan.stepWaiter at h
  split at h
  · exact absurd h (by simp)
  · split at h
    · cases h
      exact ⟨c1, c2, c3, c4, c5, c6⟩
    · exact absurd h (by simp)
  · split at h
    · rename_i hmain
      cases h
      refine ⟨c1, c2, fun _ => by simp, fun _ _ => by simp, fun h => by simp at h, fun _ => ?_⟩
      exact c6 (by rw [hmain]; simp)
    · cases h
      exact ⟨c1, c2, c3, c4, c5, c6⟩
  · exact absurd h (by simp)

theorem cleanInv_stepMain {join : String → String → String} {cap : Nat} {rootDir : String}
    {root : Root} {s s' : State} {pickErr : Bool} (hdir : root.target.isDir = true)
    (hclean : root.clean = true) (hinv : Inv cap s) (hc : CleanInv join rootDir root s)
    (h : stepMain rootDir root pickErr s = some s') : CleanInv join rootDir root s' := by
  obtain ⟨c1, c2, c3, c4, c5, c6⟩ := hc
  unfold DirScan.stepMain at h
  split at h
  · rename_i hmain
    rw [root_clean_stat root rootDir hclean] at h
    simp only [Option.some.injEq] at h
    subst h
    have htasks := hinv.stat_tasks hmain
    have hfiles := c5 hmain
    refine ⟨?_, c2, fun _ => by simp, fun _ _ => by simp, fun h => by simp at h, fun _ => ?_⟩
    · intro x hx
      simp only [htasks, List.nil_append, List.mem_singleton] at hx
      subst hx
      exact ⟨hdir, root_clean_target root hclean, trivial⟩
    · simp [htasks, hfiles, Task.pending, treePaths_eq]
  · rename_i hmain
    cases h
    refine ⟨c1, c2, fun _ => by simp, fun _ _ => by simp, fun h => by simp at h, fun _ => ?_⟩
    exact c6 (by rw [hmain]; simp)
  · rename_i hmain
    have hne : s.main ≠ .stat := by rw [hmain]; simp
    split at h
    · rename_i hd he
      rw [c2] at he
      cases he
    · cases h
      exact ⟨c1, c2, fun _ => by simp, fun _ _ => by simp, fun h => by simp at h,
        fun _ => c6 hne⟩
    · rename_i hd he
      rw [c2] at he
      cases he
    · cases h
      exact ⟨c1, c2, fun _ => by simp, fun _ _ => by simp, fun h => by simp at h,
        fun _ => c6 hne⟩
  · exact absurd h (by simp)
  · rename_i hmain
    have hne : s.main ≠ .stat := by rw [hmain]; simp
    cases h
    exact ⟨c1, c2, fun _ => by simp, fun _ _ => by simp, fun h => by simp at h,
      fun _ => c6 hne⟩
  · rename_i err hmain
    exact absurd hmain (c3 err)
  · exact absurd h (by simp)

theorem cleanInv_step {join : String → String → String} {cap : Nat} {rootDir : String}
    {root : Root} {s s' : State} {a : Action} (hdir : root.target.isDir = true)
    (hclean : root.clean = true) (hinv : Inv cap s) (hc : CleanInv join rootDir root s)
    (h : step join cap rootDir root s a = some s') : CleanInv join rootDir root s' := by
  cases a with
  | main pickErr => exact cleanInv_stepMain hdir hclean hinv hc h
  | waiter => exact cleanInv_stepWaiter hc h
  | task i =>
    obtain ⟨l1, t, l2, hl, _, hstep⟩ := stepTask_cases h
    exact cleanInv_taskStep hinv hc hl hstep

theorem cleanInv_exec {join : String → String → String} {cap : Nat} {rootDir : String}
    {root : Root} {s : State} (hdir : root.target.isDir = true) (hclean : root.clean = true)
    (hinv : Inv cap s) (hc : CleanInv join rootDir root s) (schedule : List Action) :
    CleanInv join rootDir root (DirScan.exec join cap rootDir root s schedule) := by
  induction schedule generalizing s with
  | nil => exact hc
  | cons a rest ih =>
    rw [exec_cons]
    cases hs : DirScan.step join cap rootDir root s a with
    | none => exact ih hinv hc
    | some s' => exact ih (inv_step hinv hs) (cleanInv_step hdir hclean hinv hc hs)

/-- On a clean tree, whatever the caller returns it returns without error, after
every task has returned, and the paths of the records are those of the tree. -/
theorem returned_paths {join : String → String → String} {cap : Nat} {rootDir : String}
    {root : Root} {s : State} (hinv : Inv cap s) (hc : CleanInv join rootDir root s)
    {files : List ScannedFile} {err : Option PathError} (h : s.main = .returned files err) :
    err = none ∧ (files.map ScannedFile.Path).Perm (treePaths join rootDir root.target) := by
  cases err with
  | some e => exact absurd h (hc.no_fail files e)
  | none =>
    refine ⟨rfl, ?_⟩
    obtain ⟨hf, hd⟩ := hinv.returned files h
    have hwg := hinv.closing (Or.inr (hinv.closed hd))
    rw [hinv.wg_eq, List.countP_eq_zero] at hwg
    have hpend : s.tasks.flatMap (Task.pending join) = [] := by
      rw [List.flatMap_eq_nil_iff]
      intro t ht
      have := hwg t ht
      unfold Task.unfinished at this
      unfold Task.pending
      split at this <;> simp_all
    have hp := hc.paths (by rw [h]; simp)
    rw [hpend, List.append_nil, ← hf] at hp
    exact hp

/-! ## The machine: every scheduler lets the caller return -/

theorem listW_ge (es : List FsNode) : 3 ≤ listW es := by
  induction es with
  | nil => simp [listW]
  | cons e es ih => simp only [listW]; omega

theorem nodeW_ge (d : FsNode) : 3 ≤ nodeW d := by
  cases d with
  | file name size fails => simp [nodeW]
  | dir name size fails listFails entries =>
    have := listW_ge entries
    simp only [nodeW]; omega

theorem readDir_ok_weight {d : FsNode} {path : String} {entries : List FsNode}
    (h : d.readDir path = .ok entries) : nodeW d = 1 + listW entries := by
  cases d with
  | file name size fails => simp [FsNode.readDir] at h
  | dir name size fails listFails es =>
    simp only [FsNode.readDir] at h
    split at h
    · cases h
    · cases h
      simp [nodeW]

theorem publish_weight (root : Root) (s : State) (err : PathError) :
    (publish s err).weight root = s.weight root := by
  unfold State.weight
  rw [publish_tasks, publish_waiter]
  rcases publish_main s err with ⟨h1, h2⟩ | ⟨_, h2⟩
  · rw [h1, h2]; simp [MainPC.weight]
  · rw [h2]

theorem taskStep_weight_lt {join : String → String → String} {cap : Nat} {s s' : State}
    {l1 l2 : List Task} {t : Task} (root : Root) (hl : s.tasks = l1 ++ t :: l2)
    (h : TaskStep join cap s l1 t l2 s') : s'.weight root < s.weight root := by
  have hn := nodeW_ge t.dir
  cases h with
  | acquire hpc hc =>
    simp only [State.weight, hl, List.map_append, List.map_cons, List.sum_append,
      List.sum_cons, Task.weight, hpc]
    omega
  | listFail err hpc he =>
    rw [publish_weight]
    simp only [State.weight, hl, List.map_append, List.map_cons, List.sum_append,
      List.sum_cons, Task.weight, hpc]
    omega
  | listOk entries hpc he =>
    have := readDir_ok_weight he
    simp only [State.weight, hl, List.map_append, List.map_cons, List.sum_append,
      List.sum_cons, Task.weight, hpc]
    omega
  | append buffer hpc =>
    simp only [State.weight, hl, List.map_append, List.map_cons, List.sum_append,
      List.sum_cons, Task.weight, hpc, listW]
    omega
  | infoFail entry rest buffer err hpc he =>
    rw [publish_weight]
    simp only [State.weight, hl, List.map_append, List.map_cons, List.sum_append,
      List.sum_cons, Task.weight, hpc, listW]
    omega
  | spawn entry rest buffer info hpc he hd =>
    simp only [State.weight, hl, List.map_append, List.map_cons, List.map_nil,
      List.sum_append, List.sum_cons, List.sum_nil, Task.weight, hpc, listW]
    omega
  | record entry rest buffer info hpc he hd =>
    simp only [State.weight, hl, List.map_append, List.map_cons, List.sum_append,
      List.sum_cons, Task.weight, hpc, listW]
    omega
  | release hpc hc =>
    simp only [State.weight, hl, List.map_append, List.map_cons, List.sum_append,
      List.sum_cons, Task.weight, hpc]
    omega
  | done hpc =>
    simp only [State.weight, hl, List.map_append, List.map_cons, List.sum_append,
      List.sum_cons, Task.weight, hpc]
    omega

theorem stepWaiter_weight_lt (root : Root) {s s' : State} (h : stepWaiter s = some s') :
    s'.weight root < s.weight root := by
  unfold stepWaiter at h
  split at h
  · exact absurd h (by simp)
  · rename_i hw
    split at h
    · cases h
      simp only [State.weight, hw, WaiterPC.weight]
      omega
    · exact absurd h (by simp)
  · rename_i hw
    split at h
    · rename_i hm
      cases h
      simp only [State.weight, hw, hm, WaiterPC.weight, MainPC.weight]
      omega
    · cases h
      simp only [State.weight, hw, WaiterPC.weight]
      omega
  · exact absurd h (by simp)

theorem stepMain_weight_lt {rootDir : String} {root : Root} {pickErr : Bool} {s s' : State}
    (h : stepMain rootDir root pickErr s = some s') : s'.weight root < s.weight root := by
  unfold stepMain at h
  split at h
  · rename_i hm
    split at h
    · cases h
      simp only [State.weight, hm, MainPC.weight]
      omega
    · cases h
      simp only [State.weight, hm, MainPC.weight, List.map_append, List.map_cons,
        List.map_nil, List.sum_append, List.sum_cons, List.sum_nil, Task.weight]
      omega
  · rename_i hm
    cases h
    simp only [State.weight, hm, MainPC.weight]
    have hw : s.waiter.weight ≤ 2 := by cases s.waiter <;> simp [WaiterPC.weight]
    simp only [WaiterPC.weight]
    omega
  · rename_i hm
    split at h
    · split at h <;> cases h <;> simp only [State.weight, hm, MainPC.weight] <;> omega
    · cases h
      simp only [State.weight, hm, MainPC.weight]
      omega
    · cases h
      simp only [State.weight, hm, MainPC.weight]
      omega
    · cases h
      simp only [State.weight, hm, MainPC.weight]
      omega
  · exact absurd h (by simp)
  · rename_i hm
    cases h
    simp only [State.weight, hm, MainPC.weight]
    omega
  · rename_i err hm
    cases h
    simp only [State.weight, hm, MainPC.weight]
    omega
  · exact absurd h (by simp)

theorem step_weight_lt {join : String → String → String} {cap : Nat} {rootDir : String}
    {root : Root} {s s' : State} {a : Action}
    (h : step join cap rootDir root s a = some s') : s'.weight root < s.weight root := by
  cases a with
  | main pickErr => exact stepMain_weight_lt h
  | waiter => exact stepWaiter_weight_lt root h
  | task i =>
    obtain ⟨l1, t, l2, hl, _, hstep⟩ := stepTask_cases h
    exact taskStep_weight_lt root hl hstep

theorem stepTask_isSome {join : String → String → String} {cap : Nat} {s : State} {i : Nat}
    {t : Task} (ht : s.tasks[i]? = some t) (h1 : t.pc = .acquire → s.semaphore < cap)
    (h2 : t.pc = .release → 0 < s.semaphore) (h3 : t.pc ≠ .finished) :
    (stepTask join cap s i).isSome = true := by
  unfold stepTask
  rw [ht]
  simp only []
  split
  · rename_i hpc
    rw [if_pos (h1 hpc)]; rfl
  · split <;> rfl
  · rfl
  · split
    · rfl
    · split <;> rfl
  · rename_i hpc
    rw [if_pos (h2 hpc)]; rfl
  · rfl
  · rename_i hpc
    exact absurd hpc h3

theorem mem_enabled {join : String → String → String} {cap : Nat} {rootDir : String}
    {root : Root} {s : State} {a : Action} :
    a ∈ enabled join cap rootDir root s ↔
      (a ∈ [Action.main false, Action.main true, Action.waiter] ++
        (List.range s.tasks.length).map Action.task) ∧
      (step join cap rootDir root s a).isSome = true := by
  unfold enabled
  rw [List.mem_filter]

/-- No deadlock: with at least one permit in the pool, some goroutine can move as
long as the caller has not returned. -/
theorem progress {join : String → String → String} {cap : Nat} {rootDir : String}
    {root : Root} {s : State} (hinv : Inv cap s) (hcap : 1 ≤ cap)
    (hnr : s.main.isReturned = false) : ∃ a, a ∈ enabled join cap rootDir root s := by
  have hmainStep : ∀ pickErr : Bool, (stepMain rootDir root pickErr s).isSome = true →
      ∃ a, a ∈ enabled join cap rootDir root s := fun pickErr h =>
    ⟨.main pickErr, mem_enabled.mpr ⟨by cases pickErr <;> simp, h⟩⟩
  have hwaiterStep : (stepWaiter s).isSome = true →
      ∃ a, a ∈ enabled join cap rootDir root s := fun h =>
    ⟨.waiter, mem_enabled.mpr ⟨by simp, h⟩⟩
  have htaskStep : ∀ (i : Nat) (t : Task), s.tasks[i]? = some t →
      (t.pc = .acquire → s.semaphore < cap) →
      (t.pc = .release → 0 < s.semaphore) → t.pc ≠ .finished →
      ∃ a, a ∈ enabled join cap rootDir root s := fun i t ht h1 h2 h3 => by
    refine ⟨.task i, mem_enabled.mpr ⟨?_, stepTask_isSome ht h1 h2 h3⟩⟩
    have hi : i < s.tasks.length := (List.getElem?_eq_some.mp ht).1
    simp [hi]
  cases hm : s.main with
  | stat =>
    apply hmainStep false
    unfold stepMain; rw [hm]; simp only []
    split <;> rfl
  | goWaiter => apply hmainStep false; unfold stepMain; rw [hm]; rfl
  | select =>
    apply hmainStep false
    unfold stepMain; rw [hm]; simp only []
    split <;> rfl
  | wokenDone => apply hmainStep false; unfold stepMain; rw [hm]; rfl
  | wokenErr err => apply hmainStep false; unfold stepMain; rw [hm]; rfl
  | returned files err => rw [hm] at hnr; simp [MainPC.isReturned] at hnr
  | parked =>
    have hd := hinv.parked hm
    have hns := hinv.started (Or.inr hm)
    cases hw : s.waiter with
    | notStarted => exact absurd hw hns
    | exited =>
      have := hinv.exited hw
      rw [hd] at this
      cases this
    | close => apply hwaiterStep; unfold stepWaiter; rw [hw, hm]; rfl
    | wait =>
      by_cases hwg : s.wg = 0
      · apply hwaiterStep; unfold stepWaiter; rw [hw]; simp [hwg]
      · by_cases hx : ∃ t ∈ s.tasks, t.holding = true ∨ t.pc = .done
        · obtain ⟨t, ht, hcase⟩ := hx
          obtain ⟨i, hi⟩ := List.mem_iff_getElem?.mp ht
          refine htaskStep i t hi ?_ ?_ ?_
          · intro hpc
            rcases hcase with h | h
            · simp [Task.holding, hpc] at h
            · rw [hpc] at h; cases h
          · intro _
            rcases hcase with h | h
            · rw [hinv.sem_eq]
              exact List.countP_pos_iff.mpr ⟨t, ht, h⟩
            · rename_i hpc
              rw [hpc] at h; cases h
          · intro hpc
            rcases hcase with h | h
            · simp [Task.holding, hpc] at h
            · rw [hpc] at h; cases h
        · have hpos : 0 < s.tasks.countP Task.unfinished := by
            rw [← hinv.wg_eq]; omega
          obtain ⟨t, ht, hun⟩ := List.countP_pos_iff.mp hpos
          obtain ⟨i, hi⟩ := List.mem_iff_getElem?.mp ht
          have hsem : s.semaphore = 0 := by
            rw [hinv.sem_eq, List.countP_eq_zero]
            intro x hxm hxh
            exact hx ⟨x, hxm, Or.inl hxh⟩
          have hnot : ¬ (t.holding = true ∨ t.pc = .done) := fun h => hx ⟨t, ht, h⟩
          refine htaskStep i t hi (fun _ => by omega) ?_ ?_
          · intro hpc
            exact absurd (Or.inl (by simp [Task.holding, hpc])) hnot
          · intro hpc
            simp [Task.unfinished, hpc] at hun

theorem isReturned_of_weight_zero {root : Root} {s : State} (h : s.weight root = 0) :
    s.main.isReturned = true := by
  unfold State.weight at h
  cases hm : s.main <;> rw [hm] at h <;> simp [MainPC.weight, MainPC.isReturned] at h ⊢

theorem getD_mem_cons {α : Type} (a : α) (rest : List α) (n : Nat) :
    (a :: rest).getD (n % (rest.length + 1)) a ∈ a :: rest := by
  have hlt : n % (rest.length + 1) < (a :: rest).length := by
    simp only [List.length_cons]
    exact Nat.mod_lt _ (Nat.succ_pos _)
  rw [List.getD_eq_getElem?_getD, List.getElem?_eq_getElem hlt]
  exact List.getElem_mem hlt

/-- Every scheduler lets the caller return: from a reachable state, a schedule
made of enabled actions only reaches a state where the caller has returned
within as many steps as the weight of the state. -/
theorem scheduleOf_returns {join : String → String → String} {cap : Nat} {rootDir : String}
    {root : Root} (hcap : 1 ≤ cap) (choose : Nat → Nat) :
    ∀ (fuel : Nat) (s : State), Inv cap s → s.weight root ≤ fuel →
      (exec join cap rootDir root s
        (scheduleOf join cap rootDir root choose fuel s)).main.isReturned = true := by
  intro fuel
  induction fuel with
  | zero =>
    intro s _ hw
    exact isReturned_of_weight_zero (Nat.le_zero.mp hw)
  | succ fuel ih =>
    intro s hinv hw
    unfold scheduleOf
    by_cases hr : s.main.isReturned = true
    · rw [if_pos hr]; exact hr
    · rw [if_neg hr]
      obtain ⟨a0, ha0⟩ := @progress join cap rootDir root s hinv hcap (by simpa using hr)
      cases hen : enabled join cap rootDir root s with
      | nil => rw [hen] at ha0; cases ha0
      | cons a rest =>
        simp only []
        have hmem : (a :: rest).getD (choose fuel % (rest.length + 1)) a ∈
            enabled join cap rootDir root s := by
          rw [hen]; exact getD_mem_cons a rest (choose fuel)
        have hsome := (mem_enabled.mp hmem).2
        obtain ⟨s1, hs1⟩ := Option.isSome_iff_exists.mp hsome
        rw [exec_cons, hs1]
        simp only [Option.getD_some]
        have hlt := step_weight_lt hs1
        exact ih s1 (inv_step hinv hs1) (by omega)

/-! ## The two walkers agree -/

/-- On a clean tree whose root path reaches a directory, whatever
`scanUsingGoroutines` returns, under any schedule, is a nil error and records
whose paths are those of the tree `os.ReadDir` reaches from the root path. -/
theorem scanUsingGoroutines_paths (join : String → String → String) (rootDir : String)
    (root : Root) (numCPU concurrencyMultiplier : Int) (cap : Nat)
    (hdir : root.target.isDir = true) (hclean : root.clean = true)
    (hcap : semaphoreCap numCPU concurrencyMultiplier = some cap)
    (schedule : List Action) (files : List ScannedFile) (err : Option PathError)
    (h : scanUsingGoroutines join rootDir root numCPU concurrencyMultiplier schedule =
      some (files, err)) :
    err = none ∧ (files.map ScannedFile.Path).Perm (treePaths join rootDir root.target) := by
  unfold scanUsingGoroutines at h
  rw [hcap] at h
  simp only [] at h
  have hinv := inv_of_exec join cap rootDir root schedule
  have hc := @cleanInv_exec join cap rootDir root State.init hdir hclean (inv_init cap)
    (cleanInv_init join rootDir root) schedule
  split at h
  · rename_i files' err' hm
    simp only [Option.some.injEq, Prod.mk.injEq] at h
    obtain ⟨h1, h2⟩ := h
    subst h1 h2
    exact returned_paths hinv hc hm
  · cases h

/-- On a clean tree whose root path reaches a directory, with at least one permit,
`scanUsingGoroutines` returns under every scheduler, within a number of steps
bounded by the size of the tree. -/
theorem scanUsingGoroutines_returns (join : String → String → String) (rootDir : String)
    (root : Root) (numCPU concurrencyMultiplier : Int) (cap : Nat)
    (hdir : root.target.isDir = true) (hclean : root.clean = true)
    (hcap : semaphoreCap numCPU concurrencyMultiplier = some cap) (hpos : 1 ≤ cap)
    (choose : Nat → Nat) (fuel : Nat) (hfuel : 7 + nodeW root.target ≤ fuel) :
    ∃ files, scanUsingGoroutines join rootDir root numCPU concurrencyMultiplier
      (scheduleOf join cap rootDir root choose fuel State.init) = some (files, none) := by
  have hret := @scheduleOf_returns join cap rootDir root hpos
    choose fuel State.init (inv_init cap)
    (by simpa [State.weight, State.init, MainPC.weight, WaiterPC.weight] using hfuel)
  cases hm : (exec join cap rootDir root State.init
      (scheduleOf join cap rootDir root choose fuel State.init)).main with
  | returned files err =>
    have hres : scanUsingGoroutines join rootDir root numCPU concurrencyMultiplier
        (scheduleOf join cap rootDir root choose fuel State.init) = some (files, err) := by
      unfold scanUsingGoroutines
      rw [hcap]
      simp only []
      rw [hm]
    have := (scanUsingGoroutines_paths join rootDir root numCPU concurrencyMultiplier cap
      hdir hclean hcap _ _ _ hres).1
    subst this
    exact ⟨files, hres⟩
  | stat => rw [hm] at hret; simp [MainPC.isReturned] at hret
  | goWaiter => rw [hm] at hret; simp [MainPC.isReturned] at hret
  | select => rw [hm] at hret; simp [MainPC.isReturned] at hret
  | parked => rw [hm] at hret; simp [MainPC.isReturned] at hret
  | wokenDone => rw [hm] at hret; simp [MainPC.isReturned] at hret
  | wokenErr e => rw [hm] at hret; simp [MainPC.isReturned] at hret

/-- When the root path names a directory itself (not a symbolic link) in which
every listing and every metadata read succeeds, and for every pool of at least
one permit: under every scheduler `scanUsingGoroutines` returns; and whenever it
returns, under any schedule at all, it returns a nil error and records whose
set of paths is the set of paths of the records `scanUsingWalkDir` returns
(itself with a nil error), so that `compareScanResults` on the two results
leaves `OnlyInWalkDir` and `OnlyInGoroutines` empty. -/
theorem scanUsingGoroutines_same_paths (join : String → String → String) (rootDir : String)
    (d : FsNode) (numCPU concurrencyMultiplier : Int) (cap : Nat)
    (hdir : d.isDir = true) (hclean : d.clean = true)
    (hcap : semaphoreCap numCPU concurrencyMultiplier = some cap) (hpos : 1 ≤ cap) :
    (∀ (choose : Nat → Nat) (fuel : Nat), 7 + nodeW d ≤ fuel →
      ∃ files, scanUsingGoroutines join rootDir (.node d) numCPU concurrencyMultiplier
        (scheduleOf join cap rootDir (.node d) choose fuel State.init) =
          some (files, none)) ∧
    (∀ (schedule : List Action) (files : List ScannedFile) (err : Option PathError),
      scanUsingGoroutines join rootDir (.node d) numCPU concurrencyMultiplier schedule =
        some (files, err) →
      err = none ∧ (scanUsingWalkDir join rootDir (.node d)).2 = none ∧
      pathSet files = pathSet (scanUsingWalkDir join rootDir (.node d)).1 ∧
      ∀ seedW seedG : Nat,
        (compareScanResults seedW seedG
          (scanUsingWalkDir join rootDir (.node d)).1 files).OnlyInWalkDir = [] ∧
        (compareScanResults seedW seedG
          (scanUsingWalkDir join rootDir (.node d)).1 files).OnlyInGoroutines = []) := by
  have hseq := scanUsingWalkDir_clean join rootDir (.node d) hclean
  constructor
  · intro choose fuel hfuel
    exact scanUsingGoroutines_returns join rootDir (.node d) numCPU concurrencyMultiplier cap
      hdir hclean hcap hpos choose fuel hfuel
  · intro schedule files err h
    obtain ⟨h1, h2⟩ := scanUsingGoroutines_paths join rootDir (.node d) numCPU
      concurrencyMultiplier cap hdir hclean hcap schedule files err h
    have hset : pathSet files = pathSet (scanUsingWalkDir join rootDir (.node d)).1 := by
      unfold pathSet
      rw [hseq.2]
      exact List.toFinset_eq_of_perm _ _ h2
    refine ⟨h1, hseq.1, hset, fun seedW seedG => ?_⟩
    exact (onlyIn_empty_iff seedW seedG _ _).mpr hset.symm

theorem scanUsingGoroutines_same_paths_witness :
    ((FsNode.dir "r" 4096 false false
        [.file "a" 3 false, .dir "d" 4096 false false [.file "b" 5 false]]).isDir = true ∧
      (FsNode.dir "r" 4096 false false
        [.file "a" 3 false, .dir "d" 4096 false false [.file "b" 5 false]]).clean = true ∧
      semaphoreCap 2 1 = some 2 ∧ 1 ≤ 2) ∧
    pathSet [⟨"r", ⟨true, 4096⟩⟩, ⟨"r/d/b", ⟨false, 5⟩⟩, ⟨"r/a", ⟨false, 3⟩⟩,
        ⟨"r/d", ⟨true, 4096⟩⟩] =
      pathSet (scanUsingWalkDir joinSlash "r" (.node (FsNode.dir "r" 4096 false false
        [.file "a" 3 false, .dir "d" 4096 false false [.file "b" 5 false]]))).1 :=
  ⟨⟨by decide, by decide, by decide, by decide⟩,
    ((scanUsingGoroutines_same_paths joinSlash "r"
      (FsNode.dir "r" 4096 false false
        [.file "a" 3 false, .dir "d" 4096 false false [.file "b" 5 false]])
      2 1 2 (by decide) (by decide) (by decide) (by decide)).2
      [.main false, .main false, .task 0, .task 0, .task 0, .task 0, .task 1, .task 1,
        .task 1, .task 1, .task 1, .task 1, .task 0, .task 0, .task 0, .waiter, .waiter,
        .main false]
      [⟨"r", ⟨true, 4096⟩⟩, ⟨"r/d/b", ⟨false, 5⟩⟩, ⟨"r/a", ⟨false, 3⟩⟩, ⟨"r/d", ⟨true, 4096⟩⟩]
      none (by decide)).2.2.1⟩

/-- C1 fails on the code. The root path `r` is a symbolic link to a directory
holding one file `a`; every listing and every metadata read succeeds.
`scanUsingWalkDir` records the link and stops, because `filepath.WalkDir` reads
the root with `os.Lstat`; `scanUsingGoroutines` reads it with `os.Stat` and
`os.ReadDir`, which follow the link, and records `r` and `r/a`. The two sets of
paths differ and `compareScanResults` reports `r/a` in `OnlyInGoroutines`. -/
theorem symlink_root_diverges :
    scanUsingWalkDir joinSlash "r"
        (.symlink "r" 1 false (.dir "t" 4096 false false [.file "a" 3 false])) =
      ([⟨"r", ⟨false, 1⟩⟩], none) ∧
    scanUsingGoroutines joinSlash "r"
        (.symlink "r" 1 false (.dir "t" 4096 false false [.file "a" 3 false])) 1 1
        [.main false, .main false, .task 0, .task 0, .task 0, .task 0, .task 0, .task 0,
          .waiter, .waiter, .main false] =
      some ([⟨"r", ⟨true, 4096⟩⟩, ⟨"r/a", ⟨false, 3⟩⟩], none) ∧
    pathSet [⟨"r", ⟨false, 1⟩⟩] ≠ pathSet [⟨"r", ⟨true, 4096⟩⟩, ⟨"r/a", ⟨false, 3⟩⟩] ∧
    (compareScanResults 0 0 [⟨"r", ⟨false, 1⟩⟩]
        [⟨"r", ⟨true, 4096⟩⟩, ⟨"r/a", ⟨false, 3⟩⟩]).OnlyInGoroutines = ["r/a"] := by
  decide

/-- The divergence at a symbolic-link root does not depend on the schedule:
whatever `scanUsingGoroutines` returns there carries the paths `r` and `r/a`. -/
theorem symlink_root_every_schedule (schedule : List Action) (files : List ScannedFile)
    (err : Option PathError)
    (h : scanUsingGoroutines joinSlash "r"
      (.symlink "r" 1 false (.dir "t" 4096 false false [.file "a" 3 false])) 1 1 schedule =
        some (files, err)) :
    err = none ∧ (files.map ScannedFile.Path).Perm ["r", "r/a"] :=
  scanUsingGoroutines_paths joinSlash "r"
    (.symlink "r" 1 false (.dir "t" 4096 false false [.file "a" 3 false])) 1 1 1
    (by decide) (by decide) (by decide) schedule files err h

/-- C6 at a tree of five entries under two permits, after nine actions. -/
theorem permits_bounded_witness :
    semaphoreCap 2 1 = some 2 ∧
    (exec joinSlash 2 "r" (.node (FsNode.dir "r" 4096 false false
        [.file "a" 3 false, .dir "d" 4096 false false [.file "b" 5 false]])) State.init
      [.main false, .main false, .task 0, .task 0, .task 0, .task 0, .task 1, .task 1,
        .task 1]).tasks.countP Task.holding ≤ 2 :=
  ⟨by decide,
    (permits_bounded joinSlash "r" (.node (FsNode.dir "r" 4096 false false
        [.file "a" 3 false, .dir "d" 4096 false false [.file "b" 5 false]])) 2 1 2 (by decide)
      [.main false, .main false, .task 0, .task 0, .task 0, .task 0, .task 1, .task 1,
        .task 1]).2.1⟩

/-! ## The error race -/

/-- C3 fails on the code. The root directory cannot be listed. Under the first
schedule the caller is blocked in its `select` when the task publishes the
error, and returns it with a nil slice. Under the second the task publishes the
error, releases its permit and returns, and `doneChan` is closed, all before the
caller evaluates its `select`; both cases are then ready, the `select` picks
`doneChan`, and the caller returns the record of the root with a nil error. -/
theorem scanUsingGoroutines_error_lost :
    scanUsingGoroutines joinSlash "r" (.node (.dir "r" 4096 false true [])) 1 1
        [.main false, .main false, .main false, .task 0, .task 0, .main false] =
      some ([], some ⟨"open", "r"⟩) ∧
    scanUsingGoroutines joinSlash "r" (.node (.dir "r" 4096 false true [])) 1 1
        [.main false, .main false, .task 0, .task 0, .task 0, .task 0, .waiter, .waiter,
          .main false] =
      some ([⟨"r", ⟨true, 4096⟩⟩], none) := by
  decide

/-! ## The speed ratio -/

theorem floor_le_roundHalfEven (m : ℚ) : ⌊m⌋ ≤ roundHalfEven m := by
  unfold roundHalfEven
  split_ifs <;> omega

theorem roundHalfEven_le_floor_succ (m : ℚ) : roundHalfEven m ≤ ⌊m⌋ + 1 := by
  unfold roundHalfEven
  split_ifs <;> omega

theorem roundHalfEven_intCast (k : ℤ) : roundHalfEven (k : ℚ) = k := by
  unfold roundHalfEven
  simp

theorem le_roundHalfEven {m : ℚ} {k : ℤ} (h : (k : ℚ) ≤ m) : k ≤ roundHalfEven m :=
  le_trans (Int.le_floor.mpr h) (floor_le_roundHalfEven m)

theorem roundHalfEven_le {m : ℚ} {k : ℤ} (h : m ≤ (k : ℚ)) : roundHalfEven m ≤ k := by
  rcases eq_or_lt_of_le h with h | h
  · rw [h, roundHalfEven_intCast]
  · have : ⌊m⌋ < k := Int.floor_lt.mpr h
    have := roundHalfEven_le_floor_succ m
    omega

theorem roundHalfEven_mono {m m' : ℚ} (h : m ≤ m') : roundHalfEven m ≤ roundHalfEven m' := by
  have hf : ⌊m⌋ ≤ ⌊m'⌋ := Int.floor_mono h
  rcases eq_or_lt_of_le hf with hf | hf
  · unfold roundHalfEven
    rw [← hf]
    split_ifs <;> first | omega | (exfalso; linarith)
  · have h1 := roundHalfEven_le_floor_succ m
    have h2 := floor_le_roundHalfEven m'
    omega

theorem roundHalfEven_near (m : ℚ) (k : ℤ) (h1 : (k : ℚ) - 1 / 2 < m) (h2 : m < k + 1 / 2) :
    roundHalfEven m = k := by
  have hk1 : k - 1 ≤ ⌊m⌋ := by
    rw [Int.le_floor]; push_cast; linarith
  have hk2 : ⌊m⌋ ≤ k := by
    have : ⌊m⌋ < k + 1 := by rw [Int.floor_lt]; push_cast; linarith
    omega
  have hfl := Int.floor_le m
  have hlt := Int.lt_floor_add_one m
  unfold roundHalfEven
  rcases eq_or_lt_of_le hk2 with hk | hk
  · rw [hk]
    rw [if_pos (by linarith)]
  · have hfm : ⌊m⌋ = k - 1 := by omega
    have hc : ((⌊m⌋ : ℤ) : ℚ) = (k : ℚ) - 1 := by rw [hfm]; push_cast; ring
    rw [if_neg (by rw [hc]; linarith), if_pos (by rw [hc]; linarith)]
    omega

theorem log_eq_of_bounds (x : ℚ) (e : ℤ) (h1 : (2 : ℚ) ^ e ≤ x) (h2 : x < 2 ^ (e + 1)) :
    Int.log 2 x = e := by
  have hx : 0 < x := lt_of_lt_of_le (by positivity) h1
  have a1 : e ≤ Int.log 2 x := by
    rw [← Int.zpow_le_iff_le_log (by norm_num) hx]
    simpa using h1
  have a2 : Int.log 2 x < e + 1 := by
    rw [← Int.lt_zpow_iff_log_lt (by norm_num) hx]
    simpa using h2
  omega

theorem roundFloat64_eval (x : ℚ) (e : ℤ) (h1 : (2 : ℚ) ^ e ≤ |x|) (h2 : |x| < 2 ^ (e + 1)) :
    roundFloat64 x = (roundHalfEven (x / 2 ^ (e - 52)) : ℚ) * 2 ^ (e - 52) := by
  have hx : x ≠ 0 := by
    intro h
    rw [h, abs_zero] at h1
    exact absurd h1 (not_le.mpr (by positivity))
  unfold roundFloat64
  rw [if_neg hx, log_eq_of_bounds _ e h1 h2]

theorem roundFloat64_repr (x : ℚ) (e : ℤ) (k : ℤ) (h1 : (2 : ℚ) ^ e ≤ |x|)
    (h2 : |x| < 2 ^ (e + 1)) (hk : x = (k : ℚ) * 2 ^ (e - 52)) : roundFloat64 x = x := by
  rw [roundFloat64_eval x e h1 h2]
  have hq : (2 : ℚ) ^ (e - 52) ≠ 0 := by positivity
  have : x / 2 ^ (e - 52) = (k : ℚ) := by
    rw [hk]; field_simp
  rw [this, roundHalfEven_intCast, ← hk]

theorem two_zpow_52 (e : ℤ) : (2 : ℚ) ^ e = 4503599627370496 * 2 ^ (e - 52) := by
  have h : (2 : ℚ) ^ e = 2 ^ (52 : ℤ) * 2 ^ (e - 52) := by
    rw [← zpow_add₀ (by norm_num)]
    congr 1
    ring
  rw [h]
  norm_num

theorem two_zpow_53 (e : ℤ) : (2 : ℚ) ^ (e + 1) = 9007199254740992 * 2 ^ (e - 52) := by
  have h : (2 : ℚ) ^ (e + 1) = 2 ^ (53 : ℤ) * 2 ^ (e - 52) := by
    rw [← zpow_add₀ (by norm_num)]
    congr 1
    ring
  rw [h]
  norm_num

theorem roundFloat64_zpow (n : ℤ) : roundFloat64 ((2 : ℚ) ^ n) = 2 ^ n := by
  have hpos : (0 : ℚ) < 2 ^ n := by positivity
  apply roundFloat64_repr _ n (2 ^ 52)
  · rw [abs_of_pos hpos]
  · rw [abs_of_pos hpos]
    exact zpow_lt_zpow_right₀ (by norm_num) (by omega)
  · push_cast
    exact two_zpow_52 n

theorem zpow_le_roundFloat64 (x : ℚ) (e : ℤ) (h1 : (2 : ℚ) ^ e ≤ x) (h2 : x < 2 ^ (e + 1)) :
    (2 : ℚ) ^ e ≤ roundFloat64 x ∧ roundFloat64 x ≤ 2 ^ (e + 1) := by
  have hx : 0 < x := lt_of_lt_of_le (by positivity) h1
  rw [roundFloat64_eval x e (by rwa [abs_of_pos hx]) (by rwa [abs_of_pos hx])]
  have hq : (0 : ℚ) < 2 ^ (e - 52) := by positivity
  have e1 : (2 : ℚ) ^ e = ((2 ^ 52 : ℤ) : ℚ) * 2 ^ (e - 52) := by
    push_cast
    exact two_zpow_52 e
  have e2 : (2 : ℚ) ^ (e + 1) = ((2 ^ 53 : ℤ) : ℚ) * 2 ^ (e - 52) := by
    push_cast
    exact two_zpow_53 e
  constructor
  · rw [e1]
    apply mul_le_mul_of_nonneg_right _ hq.le
    have : ((2 ^ 52 : ℤ) : ℚ) ≤ x / 2 ^ (e - 52) := by
      rw [le_div_iff₀ hq, ← e1]; exact h1
    exact_mod_cast le_roundHalfEven this
  · rw [e2]
    apply mul_le_mul_of_nonneg_right _ hq.le
    have : x / 2 ^ (e - 52) ≤ ((2 ^ 53 : ℤ) : ℚ) := by
      rw [div_le_iff₀ hq, ← e2]; exact h2.le
    exact_mod_cast roundHalfEven_le this

theorem roundFloat64_mono {x y : ℚ} (hx : 0 < x) (h : x ≤ y) :
    roundFloat64 x ≤ roundFloat64 y := by
  have hy : 0 < y := lt_of_lt_of_le hx h
  have bx1 : (2 : ℚ) ^ Int.log 2 x ≤ x := by
    simpa using @Int.zpow_log_le_self ℚ _ _ 2 x (by norm_num) hx
  have bx2 : x < (2 : ℚ) ^ (Int.log 2 x + 1) := by
    simpa using @Int.lt_zpow_succ_log_self ℚ _ _ 2 (by norm_num) x
  have by1 : (2 : ℚ) ^ Int.log 2 y ≤ y := by
    simpa using @Int.zpow_log_le_self ℚ _ _ 2 y (by norm_num) hy
  have by2 : y < (2 : ℚ) ^ (Int.log 2 y + 1) := by
    simpa using @Int.lt_zpow_succ_log_self ℚ _ _ 2 (by norm_num) y
  have hlog : Int.log 2 x ≤ Int.log 2 y := Int.log_mono_right hx h
  rcases eq_or_lt_of_le hlog with he | he
  · rw [roundFloat64_eval x _ (by rwa [abs_of_pos hx]) (by rwa [abs_of_pos hx]),
      roundFloat64_eval y _ (by rwa [abs_of_pos hy]) (by rwa [abs_of_pos hy]), he]
    have hq : (0 : ℚ) < 2 ^ (Int.log 2 y - 52) := by positivity
    apply mul_le_mul_of_nonneg_right _ hq.le
    have : x / 2 ^ (Int.log 2 y - 52) ≤ y / 2 ^ (Int.log 2 y - 52) :=
      div_le_div_of_nonneg_right h hq.le
    exact_mod_cast roundHalfEven_mono this
  · have h1 := (zpow_le_roundFloat64 x _ bx1 bx2).2
    have h2 := (zpow_le_roundFloat64 y _ by1 by2).1
    have h3 : (2 : ℚ) ^ (Int.log 2 x + 1) ≤ 2 ^ Int.log 2 y :=
      zpow_le_zpow_right₀ (by norm_num) (by omega)
    linarith

theorem roundFloat64_pos_eval (x : ℚ) (e : ℤ) (h1 : (2 : ℚ) ^ e ≤ x) (h2 : x < 2 ^ (e + 1)) :
    roundFloat64 x = (roundHalfEven (x / 2 ^ (e - 52)) : ℚ) * 2 ^ (e - 52) := by
  have hx : 0 < x := lt_of_lt_of_le (by positivity) h1
  exact roundFloat64_eval x e (by rwa [abs_of_pos hx]) (by rwa [abs_of_pos hx])

theorem roundFloat64_pos_repr (x : ℚ) (e : ℤ) (k : ℤ) (h1 : (2 : ℚ) ^ e ≤ x)
    (h2 : x < 2 ^ (e + 1)) (hk : x = (k : ℚ) * 2 ^ (e - 52)) : roundFloat64 x = x := by
  have hx : 0 < x := lt_of_lt_of_le (by positivity) h1
  exact roundFloat64_repr x e k (by rwa [abs_of_pos hx]) (by rwa [abs_of_pos hx]) hk

theorem roundFloat64_one : roundFloat64 1 = 1 := by
  have := roundFloat64_zpow 0
  simpa using this

theorem roundFloat64_ten : roundFloat64 10 = 10 := by
  apply roundFloat64_pos_repr 10 3 5629499534213120 <;> norm_num

theorem roundFloat64_21_2 : roundFloat64 (21 / 2) = 21 / 2 := by
  apply roundFloat64_pos_repr (21 / 2) 3 5910974510923776 <;> norm_num

theorem truncInt_of_nonneg (y : ℚ) (h0 : 0 ≤ y) (hb : y < 2 ^ 63) : truncInt y = ⌊y⌋ := by
  unfold truncInt
  simp only [h0, ↓reduceIte]
  have h1 : (0 : Int) ≤ ⌊y⌋ := Int.floor_nonneg.mpr h0
  have h2 : ⌊y⌋ < 2 ^ 63 := by
    rw [Int.floor_lt]
    exact_mod_cast hb
  rw [if_pos ⟨by omega, h2⟩]

theorem f64MulAdd_bounds (fused : Bool) (x : ℚ) (h1 : 1 ≤ x) (h2 : x ≤ 2 ^ 57) :
    21 / 2 ≤ f64MulAdd fused x 10 (1 / 2) ∧ f64MulAdd fused x 10 (1 / 2) ≤ 2 ^ 62 := by
  have p62 : roundFloat64 ((2 : ℚ) ^ (62 : ℤ)) = 2 ^ (62 : ℤ) := roundFloat64_zpow 62
  have p61 : roundFloat64 ((2 : ℚ) ^ (61 : ℤ)) = 2 ^ (61 : ℤ) := roundFloat64_zpow 61
  norm_num at p62 p61
  unfold f64MulAdd
  cases fused
  · simp only [Bool.false_eq_true, ↓reduceIte]
    have a1 : (10 : ℚ) ≤ roundFloat64 (x * 10) := by
      have := @roundFloat64_mono (10) (x * 10) (by norm_num) (by linarith)
      rwa [roundFloat64_ten] at this
    have a2 : roundFloat64 (x * 10) ≤ 2305843009213693952 := by
      have := @roundFloat64_mono (x * 10) (2305843009213693952) (by linarith)
        (by norm_num at h2; linarith)
      rwa [p61] at this
    constructor
    · have := @roundFloat64_mono (21 / 2) (roundFloat64 (x * 10) + 1 / 2)
        (by norm_num) (by linarith)
      rwa [roundFloat64_21_2] at this
    · have := @roundFloat64_mono (roundFloat64 (x * 10) + 1 / 2) (4611686018427387904) (by linarith) (by linarith)
      rw [p62] at this
      norm_num
      exact this
  · simp only [↓reduceIte]
    constructor
    · have := @roundFloat64_mono (21 / 2) (x * 10 + 1 / 2) (by norm_num)
        (by linarith)
      rwa [roundFloat64_21_2] at this
    · have := @roundFloat64_mono (x * 10 + 1 / 2) (4611686018427387904)
        (by linarith) (by norm_num at h2; linarith)
      rw [p62] at this
      norm_num
      exact this

theorem roundTenth_one (fused : Bool) : roundTenth fused 1 = 1 := by
  have hm : f64MulAdd fused 1 10 (1 / 2) = 21 / 2 := by
    unfold f64MulAdd
    cases fused
    · simp only [Bool.false_eq_true, ↓reduceIte, one_mul, roundFloat64_ten]
      norm_num
      exact roundFloat64_21_2
    · simp only [↓reduceIte, one_mul]
      norm_num
      exact roundFloat64_21_2
  have ht : truncInt (21 / 2) = 10 := by
    rw [truncInt_of_nonneg _ (by norm_num) (by norm_num), Int.floor_eq_iff]
    constructor <;> norm_num
  unfold roundTenth f64Div f64OfInt
  rw [hm, ht]
  norm_num
  rw [roundFloat64_ten]
  norm_num
  exact roundFloat64_one

theorem roundTenth_ge_one (fused : Bool) (x : ℚ) (h1 : 1 ≤ x) (h2 : x ≤ 2 ^ 57) :
    1 ≤ roundTenth fused x := by
  obtain ⟨b1, b2⟩ := f64MulAdd_bounds fused x h1 h2
  have ht : truncInt (f64MulAdd fused x 10 (1 / 2)) = ⌊f64MulAdd fused x 10 (1 / 2)⌋ :=
    truncInt_of_nonneg _ (by linarith) (by norm_num at b2 ⊢; linarith)
  have hk : (10 : ℤ) ≤ ⌊f64MulAdd fused x 10 (1 / 2)⌋ := by
    rw [Int.le_floor]; push_cast; linarith
  unfold roundTenth f64Div f64OfInt
  rw [ht]
  have hkq : (10 : ℚ) ≤ ((⌊f64MulAdd fused x 10 (1 / 2)⌋ : ℤ) : ℚ) := by exact_mod_cast hk
  have c1 : (10 : ℚ) ≤ roundFloat64 ((⌊f64MulAdd fused x 10 (1 / 2)⌋ : ℤ) : ℚ) := by
    have := @roundFloat64_mono (10) _ (by norm_num) hkq
    rwa [roundFloat64_ten] at this
  have := @roundFloat64_mono (1) (roundFloat64 ((⌊f64MulAdd fused x 10 (1 / 2)⌋ : ℤ) : ℚ) / 10) (by norm_num)
    (by rw [le_div_iff₀ (by norm_num)]; linarith)
  rwa [roundFloat64_one] at this

theorem quotient_bounds (slow fast : Int) (hf : 0 < fast) (hs : fast ≤ slow)
    (hb : slow ≤ 2 ^ 57) :
    1 ≤ f64Div (f64OfInt slow) (f64OfInt fast) ∧
      f64Div (f64OfInt slow) (f64OfInt fast) ≤ 2 ^ 57 := by
  have p57 : roundFloat64 ((2 : ℚ) ^ (57 : ℤ)) = 2 ^ (57 : ℤ) := roundFloat64_zpow 57
  norm_num at p57
  have hfq : (1 : ℚ) ≤ (fast : ℚ) := by exact_mod_cast hf
  have hsq : (fast : ℚ) ≤ (slow : ℚ) := by exact_mod_cast hs
  have hbq : (slow : ℚ) ≤ 144115188075855872 := by exact_mod_cast hb
  unfold f64Div f64OfInt
  have b1 : 1 ≤ roundFloat64 (fast : ℚ) := by
    have := @roundFloat64_mono (1) _ (by norm_num) hfq
    rwa [roundFloat64_one] at this
  have b2 : roundFloat64 (fast : ℚ) ≤ roundFloat64 (slow : ℚ) :=
    roundFloat64_mono (by linarith) hsq
  have b3 : roundFloat64 (slow : ℚ) ≤ 144115188075855872 := by
    have := @roundFloat64_mono ((slow : ℚ)) _ (by linarith) hbq
    rwa [p57] at this
  have hbpos : (0 : ℚ) < roundFloat64 (fast : ℚ) := by linarith
  have q1 : 1 ≤ roundFloat64 (slow : ℚ) / roundFloat64 (fast : ℚ) := by
    rw [le_div_iff₀ hbpos]; linarith
  have q2 : roundFloat64 (slow : ℚ) / roundFloat64 (fast : ℚ) ≤ 144115188075855872 := by
    rw [div_le_iff₀ hbpos]
    nlinarith
  constructor
  · have := @roundFloat64_mono (1) _ (by norm_num) q1
    rwa [roundFloat64_one] at this
  · have := roundFloat64_mono (by linarith) q2
    rw [p57] at this
    norm_num
    exact this

theorem roundFloat64_near (x : ℚ) (e : ℤ) (k : ℤ) (h1 : (2 : ℚ) ^ e ≤ x)
    (h2 : x < 2 ^ (e + 1)) (hk1 : (k : ℚ) - 1 / 2 < x / 2 ^ (e - 52))
    (hk2 : x / 2 ^ (e - 52) < k + 1 / 2) :
    roundFloat64 x = (k : ℚ) * 2 ^ (e - 52) := by
  rw [roundFloat64_pos_eval x e h1 h2, roundHalfEven_near _ k hk1 hk2]

theorem speedIncrease_at_200_100 : speedIncrease false 200 100 = (1, 2) := by
  have r200 : roundFloat64 200 = 200 := by
    apply roundFloat64_pos_repr 200 7 7036874417766400 <;> norm_num
  have r100 : roundFloat64 100 = 100 := by
    apply roundFloat64_pos_repr 100 6 7036874417766400 <;> norm_num
  have r2 : roundFloat64 2 = 2 := by
    apply roundFloat64_pos_repr 2 1 4503599627370496 <;> norm_num
  have r20 : roundFloat64 20 = 20 := by
    apply roundFloat64_pos_repr 20 4 5629499534213120 <;> norm_num
  have r41 : roundFloat64 (41 / 2) = 41 / 2 := by
    apply roundFloat64_pos_repr (41 / 2) 4 5770237022568448 <;> norm_num
  have ht : truncInt (41 / 2) = 20 := by
    rw [truncInt_of_nonneg _ (by norm_num) (by norm_num), Int.floor_eq_iff]
    constructor <;> norm_num
  have hq : f64Div (f64OfInt 200) (f64OfInt 100) = 2 := by
    unfold f64Div f64OfInt
    norm_num
    rw [r200, r100]
    norm_num
    exact r2
  have hr : roundTenth false 2 = 2 := by
    unfold roundTenth f64MulAdd f64Div f64OfInt
    simp only [Bool.false_eq_true, ↓reduceIte]
    norm_num
    rw [r20]
    norm_num
    rw [r41, ht]
    norm_num
    rw [r20]
    norm_num
    exact r2
  unfold speedIncrease
  rw [if_pos (by decide)]
  simp only []
  rw [hq, hr, roundTenth_one]

theorem speedIncrease_at_tie_break :
    (speedIncrease false 104999999999999999 100000000000000000).2 =
      2476979795053773 / 2251799813685248 := by
  have ra : roundFloat64 104999999999999999 = 105000000000000000 := by
    rw [roundFloat64_near 104999999999999999 56 6562500000000000 (by norm_num) (by norm_num)
      (by norm_num) (by norm_num)]
    norm_num
  have rb : roundFloat64 100000000000000000 = 100000000000000000 := by
    apply roundFloat64_pos_repr 100000000000000000 56 6250000000000000 <;> norm_num
  have rq : roundFloat64 (21 / 20) = 4728779608739021 / 4503599627370496 := by
    rw [roundFloat64_near (21 / 20) 0 4728779608739021 (by norm_num) (by norm_num)
      (by norm_num) (by norm_num)]
    norm_num
  have rm : roundFloat64 (4728779608739021 / 4503599627370496 * 10) = 21 / 2 := by
    rw [roundFloat64_near _ 3 5910974510923776 (by norm_num) (by norm_num)
      (by norm_num) (by norm_num)]
    norm_num
  have r11 : roundFloat64 11 = 11 := by
    apply roundFloat64_pos_repr 11 3 6192449487634432 <;> norm_num
  have ht : truncInt 11 = 11 := by
    rw [truncInt_of_nonneg _ (by norm_num) (by norm_num), Int.floor_eq_iff]
    constructor <;> norm_num
  have rr : roundFloat64 (11 / 10) = 2476979795053773 / 2251799813685248 := by
    rw [roundFloat64_near (11 / 10) 0 4953959590107546 (by norm_num) (by norm_num)
      (by norm_num) (by norm_num)]
    norm_num
  have hq : f64Div (f64OfInt 104999999999999999) (f64OfInt 100000000000000000) =
      4728779608739021 / 4503599627370496 := by
    unfold f64Div f64OfInt
    norm_num
    rw [ra, rb]
    norm_num
    exact rq
  unfold speedIncrease
  rw [if_pos (by decide)]
  simp only []
  rw [hq]
  unfold roundTenth f64MulAdd f64Div f64OfInt
  simp only [Bool.false_eq_true, ↓reduceIte]
  rw [rm]
  norm_num
  rw [r11, ht]
  norm_num
  rw [r11]
  exact rr

theorem roundTenth_tenths (fused : Bool) (x : ℚ) (h1 : 1 ≤ x) (h2 : x ≤ 2 ^ 57) :
    ∃ k : ℤ, 10 ≤ k ∧ roundTenth fused x = f64Div (f64OfInt k) 10 := by
  obtain ⟨b1, b2⟩ := f64MulAdd_bounds fused x h1 h2
  refine ⟨truncInt (f64MulAdd fused x 10 (1 / 2)), ?_, rfl⟩
  rw [truncInt_of_nonneg _ (by linarith) (by norm_num at b2 ⊢; linarith), Int.le_floor]
  push_cast
  linarith

/-- C9, as stated, fails. With `WalkDir` at 200 ns and the goroutines at 100 ns the
goroutine strategy, the faster one, is reported at 2.0 and `WalkDir`, the slower
one, at 1.0. And the ratio reported is not the quotient rounded to one decimal
place: at 104999999999999999 ns against 100000000000000000 ns the `float64`
computation gives the `float64` nearest to 1.1, while the quotient,
1.04999999999999999, rounds to 1.0. -/
theorem speedIncrease_faster_not_one :
    speedIncrease false 200 100 = (1, 2) ∧
    (speedIncrease false 104999999999999999 100000000000000000).2 =
      roundFloat64 (11 / 10) ∧
    roundFloat64 (11 / 10) = 2476979795053773 / 2251799813685248 ∧
    (⌊(104999999999999999 : ℚ) / 100000000000000000 * 10 + 1 / 2⌋ : ℚ) / 10 = 1 := by
  have rr : roundFloat64 (11 / 10) = 2476979795053773 / 2251799813685248 := by
    rw [roundFloat64_near (11 / 10) 0 4953959590107546 (by norm_num) (by norm_num)
      (by norm_num) (by norm_num)]
    norm_num
  refine ⟨speedIncrease_at_200_100, ?_, rr, ?_⟩
  · rw [rr]
    exact speedIncrease_at_tie_break
  · have : ⌊(104999999999999999 : ℚ) / 100000000000000000 * 10 + 1 / 2⌋ = 10 := by
      rw [Int.floor_eq_iff]
      constructor <;> norm_num
    rw [this]
    norm_num

/-- C9, amended. In `float64` arithmetic, with or without a fused multiply-add,
for positive durations of at most 2^57 ns: the strategy with the larger
duration (the slower one) is reported with speed ratio 1.0, and the other
strategy with `float64(int(q*10+0.5)) / 10`, where `q` is the `float64`
quotient of the slower duration by the faster one; that value is a whole
number `k >= 10` converted to `float64` and divided by ten, and is at least
1.0. On a tie both are reported at 1.0. -/
theorem speedIncrease_slower_is_one (fused : Bool) (durationWalkDir durationGoroutines : Int)
    (hW : 0 < durationWalkDir) (hG : 0 < durationGoroutines)
    (hWb : durationWalkDir ≤ 2 ^ 57) (hGb : durationGoroutines ≤ 2 ^ 57) :
    (durationGoroutines < durationWalkDir →
      (speedIncrease fused durationWalkDir durationGoroutines).1 = 1 ∧
      (speedIncrease fused durationWalkDir durationGoroutines).2 =
        roundTenth fused (f64Div (f64OfInt durationWalkDir) (f64OfInt durationGoroutines)) ∧
      (∃ k : ℤ, 10 ≤ k ∧
        (speedIncrease fused durationWalkDir durationGoroutines).2 =
          f64Div (f64OfInt k) 10) ∧
      1 ≤ (speedIncrease fused durationWalkDir durationGoroutines).2) ∧
    (durationWalkDir ≤ durationGoroutines →
      (speedIncrease fused durationWalkDir durationGoroutines).2 = 1 ∧
      (speedIncrease fused durationWalkDir durationGoroutines).1 =
        roundTenth fused (f64Div (f64OfInt durationGoroutines) (f64OfInt durationWalkDir)) ∧
      (∃ k : ℤ, 10 ≤ k ∧
        (speedIncrease fused durationWalkDir durationGoroutines).1 =
          f64Div (f64OfInt k) 10) ∧
      1 ≤ (speedIncrease fused durationWalkDir durationGoroutines).1) := by
  constructor
  · intro hlt
    obtain ⟨q1, q2⟩ := quotient_bounds durationWalkDir durationGoroutines hG (by omega) hWb
    unfold speedIncrease
    rw [if_pos hlt]
    simp only []
    rw [roundTenth_one]
    exact ⟨rfl, trivial, roundTenth_tenths fused _ q1 q2, roundTenth_ge_one fused _ q1 q2⟩
  · intro hle
    obtain ⟨q1, q2⟩ := quotient_bounds durationGoroutines durationWalkDir hW hle hGb
    unfold speedIncrease
    rw [if_neg (by omega)]
    simp only []
    rw [roundTenth_one]
    exact ⟨rfl, trivial, roundTenth_tenths fused _ q1 q2, roundTenth_ge_one fused _ q1 q2⟩

theorem speedIncrease_slower_is_one_witness :
    ((0 : Int) < 200 ∧ (0 : Int) < 100 ∧ (200 : Int) ≤ 2 ^ 57 ∧ (100 : Int) ≤ 2 ^ 57 ∧
      (100 : Int) < 200) ∧
    (speedIncrease false 200 100).1 = 1 :=
  ⟨by decide,
    ((speedIncrease_slower_is_one false 200 100 (by decide) (by decide) (by decide)
      (by decide)).1 (by decide)).1⟩

end DirScan
